import Mathlib

/-!
Verification of the `rett` graph store against its specification.

The development shallowly embeds the relevant Rust sources:

* `src/graph.rs` — the serde-integrated graph store (namespace `Rett`):
  `Atom`, `Link`, `Object`, `ObjectData`, `Graph` with `use_atom`,
  `use_link`, `create_abstract`, `remove_object`, `set_description`,
  plus its `Serialize`/`Deserialize` implementations (`encode`/`decode`).
* `src/main.rs` — the free-list slot allocator `SlotVec` (namespace
  `Rett.MainRs`) and the always-unequal `PartialEq` implementation of the
  top-level `Entity` type.

Rust `HashMap<K, usize>` values are embedded as functions `K → Option Nat`
(lookup semantics; `insert`/`remove_entry` become pointwise updates), and a
`Vec<Option<T>>` as `List (Option T)`.  Code paths that panic in Rust
(`unwrap` on `None`, `assert_eq!` failures, out-of-bounds `Vec` indexing)
are modelled by an explicit failure outcome (`Option`, `RemoveResult.crash`,
`DecodeResult.crash`), so that the embedding is total while the panic
behaviour stays observable.
-/

namespace Rett

/-- Index for graph elements (`pub type Index = usize;` in graph.rs). -/
abbrev Index := Nat

/-- Graph operation errors (graph.rs `enum Error`). -/
inductive Error
  | InvalidIndex
  | CannotRemoveLinked
deriving DecidableEq

/-- graph.rs `enum Atom { Text(String), Integer(i32) }`. -/
inductive Atom
  | Text (s : String)
  | Integer (n : Int)
deriving DecidableEq

/-- graph.rs `Atom::text` constructor helper. -/
def Atom.text (s : String) : Atom := Atom.Text s

/-- graph.rs `struct Link { from: Index, to: Index }`. -/
structure Link where
  «from» : Index
  «to» : Index
deriving DecidableEq

/-- graph.rs `enum Object { Atom(Atom), Link(Link), Abstract }`. -/
inductive Object
  | Atom (a : Atom)
  | Link (l : Link)
  | Abstract
deriving DecidableEq

/-- graph.rs `Object::is_link`. -/
def Object.is_link : Object → Bool
  | .Link _ => true
  | _ => false

/-- graph.rs `Object::is_atom`. -/
def Object.is_atom : Object → Bool
  | .Atom _ => true
  | _ => false

/-- graph.rs `struct ObjectData`: the object, its description, and the
derived topology (`in_links` / `out_links`, serde-skipped). -/
structure ObjectData where
  object : Object
  description : String
  in_links : List Index
  out_links : List Index

/-- graph.rs `ObjectData::new`. -/
def ObjectData.new (o : Object) : ObjectData :=
  { object := o, description := "", in_links := [], out_links := [] }

/-- graph.rs `struct Graph`: slot vector plus the two uniqueness indices. -/
structure Graph where
  objects : List (Option ObjectData)
  atom_indexes : Atom → Option Index
  link_indexes : Link → Option Index

/-- graph.rs `Graph::new`. -/
def Graph.new : Graph :=
  { objects := [], atom_indexes := fun _ => none, link_indexes := fun _ => none }

/-- graph.rs `Graph::valid`: `index < self.objects.len() && self.objects[index].is_some()`. -/
def Graph.valid (g : Graph) (i : Index) : Bool :=
  match g.objects[i]? with
  | some (some _) => true
  | _ => false

/-- Observer: the `Object` stored at a live slot (via graph.rs `get_object`). -/
def Graph.slotObject (g : Graph) (i : Index) : Option Object :=
  match g.objects[i]? with
  | some (some d) => some d.object
  | _ => none

/-- Observer: the description stored at a live slot. -/
def Graph.slotDescription (g : Graph) (i : Index) : Option String :=
  match g.objects[i]? with
  | some (some d) => some d.description
  | _ => none

/-- Observer: the `out_links` back-link list of a slot (graph.rs
`ObjectRef::out_links_index`; empty for dead slots). -/
def Graph.outLinks (g : Graph) (i : Index) : List Index :=
  match g.objects[i]? with
  | some (some d) => d.out_links
  | _ => []

/-- Observer: the `in_links` back-link list of a slot (graph.rs
`ObjectRef::in_links_index`; empty for dead slots). -/
def Graph.inLinks (g : Graph) (i : Index) : List Index :=
  match g.objects[i]? with
  | some (some d) => d.in_links
  | _ => []

/-- Observer: number of live elements (occupied slots) of the store. -/
def Graph.liveCount (g : Graph) : Nat :=
  g.objects.countP Option.isSome

/-- graph.rs `Graph::get_atom_index`. -/
def Graph.get_atom_index (g : Graph) (a : Atom) : Option Index :=
  g.atom_indexes a

/-- graph.rs `Graph::get_link_index`. -/
def Graph.get_link_index (g : Graph) (l : Link) : Option Index :=
  g.link_indexes l

/-- The slot-scanning loop of graph.rs `Graph::insert_object`: the first
index holding `None`, if any. -/
def findFreeSlot : List (Option ObjectData) → Option Nat
  | [] => none
  | none :: _ => some 0
  | some _ :: rest => (findFreeSlot rest).map (· + 1)

/-- graph.rs `Graph::insert_object`: reuse the first unused slot, else push
a new one at the end. -/
def Graph.insert_object (g : Graph) (o : Object) : Graph × Index :=
  match findFreeSlot g.objects with
  | some i => ({ g with objects := g.objects.set i (some (ObjectData.new o)) }, i)
  | none => ({ g with objects := g.objects ++ [some (ObjectData.new o)] }, g.objects.length)

/-- graph.rs `Graph::register_atom`: insert into `atom_indexes` and
`assert_eq!(old, None)`; the assertion failure (a Rust panic) is `none`. -/
def Graph.register_atom (g : Graph) (i : Index) (a : Atom) : Option Graph :=
  if (g.atom_indexes a).isSome then none
  else some { g with atom_indexes := fun a' => if a' = a then some i else g.atom_indexes a' }

/-- graph.rs `Graph::register_link`: push the link index on `out_links` of
`from` and `in_links` of `to` (each `unwrap` panics — `none` — on a dead
slot), then insert into `link_indexes` with `assert_eq!(old, None)`. -/
def Graph.register_link (g : Graph) (i : Index) (l : Link) : Option Graph :=
  match g.objects[l.«from»]? with
  | some (some dF) =>
    let g1 : Graph :=
      { g with objects := g.objects.set l.«from» (some { dF with out_links := dF.out_links ++ [i] }) }
    match g1.objects[l.«to»]? with
    | some (some dT) =>
      let g2 : Graph :=
        { g1 with objects := g1.objects.set l.«to» (some { dT with in_links := dT.in_links ++ [i] }) }
      if (g2.link_indexes l).isSome then none
      else some { g2 with link_indexes := fun l' => if l' = l then some i else g2.link_indexes l' }
    | _ => none
  | _ => none

/-- graph.rs `Graph::use_atom`: get-or-create an atom.  The outer `Option`
is the (unreachable on this path) `register_atom` assertion panic. -/
def Graph.use_atom (g : Graph) (a : Atom) : Option (Graph × Index) :=
  match g.get_atom_index a with
  | some i => some (g, i)
  | none =>
    let p := g.insert_object (Object.Atom a)
    (p.1.register_atom p.2 a).map (fun g2 => (g2, p.2))

/-- graph.rs `Graph::use_link`: validate both endpoints, then get-or-create
the link.  The outer `Option` is a `register_link` panic. -/
def Graph.use_link (g : Graph) (l : Link) : Option (Graph × Except Error Index) :=
  if g.valid l.«from» && g.valid l.«to» then
    match g.get_link_index l with
    | some i => some (g, Except.ok i)
    | none =>
      let p := g.insert_object (Object.Link l)
      (p.1.register_link p.2 l).map (fun g2 => (g2, Except.ok p.2))
  else some (g, Except.error Error.InvalidIndex)

/-- graph.rs `Graph::create_abstract`. -/
def Graph.create_abstract (g : Graph) : Graph × Index :=
  g.insert_object Object.Abstract

/-- graph.rs `Graph::set_description`. -/
def Graph.set_description (g : Graph) (i : Index) (text : String) : Except Error Graph :=
  if g.valid i then
    match g.objects[i]? with
    | some (some d) => Except.ok { g with objects := g.objects.set i (some { d with description := text }) }
    | _ => Except.error Error.InvalidIndex
  else Except.error Error.InvalidIndex

/-- Outcome of graph.rs `Graph::remove_object`: success, a returned
`Error`, or a Rust panic (`crash`). -/
inductive RemoveResult
  | ok (g : Graph)
  | err (e : Error)
  | crash

def RemoveResult.isOk : RemoveResult → Bool
  | .ok _ => true
  | _ => false

def RemoveResult.isCrash : RemoveResult → Bool
  | .crash => true
  | _ => false

/-- graph.rs `Graph::remove_object`: reject an invalid index; reject a
*Link* that still has live in/out back-links; otherwise clear the slot and
unregister.  Removing a `Link` retains its index out of the endpoints'
back-link lists — the `unwrap` on each endpoint slot panics (`crash`) if
that slot is empty. -/
def Graph.remove_object (g : Graph) (i : Index) : RemoveResult :=
  match g.objects[i]? with
  | some (some d) =>
    if d.object.is_link && !(d.in_links.isEmpty && d.out_links.isEmpty) then
      .err Error.CannotRemoveLinked
    else
      let g1 : Graph := { g with objects := g.objects.set i none }
      match d.object with
      | .Atom a => .ok { g1 with atom_indexes := fun a' => if a' = a then none else g1.atom_indexes a' }
      | .Link l =>
        let g2 : Graph := { g1 with link_indexes := fun l' => if l' = l then none else g1.link_indexes l' }
        match g2.objects[l.«from»]? with
        | some (some dF) =>
          let g3 : Graph :=
            { g2 with objects := g2.objects.set l.«from» (some { dF with out_links := dF.out_links.filter (fun j => j != i) }) }
          match g3.objects[l.«to»]? with
          | some (some dT) =>
            .ok { g3 with objects := g3.objects.set l.«to» (some { dT with in_links := dT.in_links.filter (fun j => j != i) }) }
          | _ => .crash
        | _ => .crash
      | .Abstract => .ok g1
  | _ => .err Error.InvalidIndex

/-! ### Serialization codec (graph.rs `impl Serialize/Deserialize for Graph`)

The graph is serialized as the sequence `Vec<Option<ObjectData>>`, each
occupied entry carrying only `object` and `description` (the back-link
fields carry `#[serde(skip)]`). -/

/-- One serialized slot record: the fields of `ObjectData` that survive
serde (`object`, `description`). -/
structure SerObjectData where
  object : Object
  description : String
deriving DecidableEq

/-- graph.rs `impl Serialize for Graph`: the slot sequence with back-links
dropped. -/
def encode (g : Graph) : List (Option SerObjectData) :=
  g.objects.map (Option.map fun d => { object := d.object, description := d.description })

/-- The freshly deserialized slot vector: serde fills the skipped
`in_links`/`out_links` fields with their defaults (empty vectors). -/
def initObjects (s : List (Option SerObjectData)) : List (Option ObjectData) :=
  s.map (Option.map fun sd =>
    { object := sd.object, description := sd.description, in_links := [], out_links := [] })

/-- Outcome of graph.rs `impl Deserialize for Graph`: a restored graph, a
deserialization error naming the offending slot (`D::Error::custom("link at
index {} holds an invalid graph index")`), or a Rust panic (`crash`, from
the `assert_eq!(old, None)` inside `register_atom`/`register_link`). -/
inductive DecodeResult
  | ok (g : Graph)
  | error (atSlot : Index)
  | crash

def DecodeResult.isOk : DecodeResult → Bool
  | .ok _ => true
  | _ => false

def DecodeResult.isError : DecodeResult → Bool
  | .error _ => true
  | _ => false

/-- One iteration of the restore loop of graph.rs `Deserialize for Graph`:
re-register the atom or link stored at index `i`, validating link
endpoints first. -/
def decodeStep (g : Graph) (i : Nat) : DecodeResult :=
  match g.slotObject i with
  | some (.Atom a) =>
    match g.register_atom i a with
    | some g' => .ok g'
    | none => .crash
  | some (.Link l) =>
    if g.valid l.«from» && g.valid l.«to» then
      match g.register_link i l with
      | some g' => .ok g'
      | none => .crash
    else .error i
  | _ => .ok g

/-- The restore loop over the given index order. -/
def decodeLoop (g : Graph) : List Nat → DecodeResult
  | [] => .ok g
  | i :: rest =>
    match decodeStep g i with
    | .ok g' => decodeLoop g' rest
    | r => r

/-- graph.rs `impl Deserialize for Graph`: load the slot sequence, then
rebuild `in_links`/`out_links` and both uniqueness indices by scanning all
indices `0..len` in order. -/
def decode (s : List (Option SerObjectData)) : DecodeResult :=
  decodeLoop
    { objects := initObjects s, atom_indexes := fun _ => none, link_indexes := fun _ => none }
    (List.range (initObjects s).length)

/-! ### main.rs embeddings: the `slot_vec` free-list allocator and the
always-unequal `Entity`. -/

namespace MainRs

/-- main.rs `enum Slot<T> { Used(T), Unused(Option<usize>) }`. -/
inductive Slot (T : Type)
  | Used (t : T)
  | Unused (next : Option Nat)

/-- main.rs `struct SlotVec<T>`: slots, free-list head, live count. -/
structure SlotVec (T : Type) where
  slots : List (Slot T)
  next_unused_slot_id : Option Nat
  nb_objects : Nat

/-- main.rs `SlotVec::new`. -/
def SlotVec.new (T : Type) : SlotVec T :=
  { slots := [], next_unused_slot_id := none, nb_objects := 0 }

/-- main.rs `SlotVec::insert`: pop the head of the free list if there is
one, else push a fresh slot.  A used slot in the free list, or an
out-of-bounds free-list head, is a Rust panic (`none`). -/
def SlotVec.insert {T : Type} (sv : SlotVec T) (v : T) : Option (SlotVec T × Nat) :=
  match sv.next_unused_slot_id with
  | some unused_id =>
    match sv.slots[unused_id]? with
    | some (.Unused next_id) =>
      some ({ slots := sv.slots.set unused_id (.Used v),
              next_unused_slot_id := next_id,
              nb_objects := sv.nb_objects + 1 }, unused_id)
    | _ => none
  | none =>
    some ({ slots := sv.slots ++ [.Used v],
            next_unused_slot_id := none,
            nb_objects := sv.nb_objects + 1 }, sv.slots.length)

/-- main.rs `SlotVec::remove`: mark the slot unused and prepend it to the
free list, returning the removed value; `None` result if the slot was
already empty.  Out-of-bounds indexing is a Rust panic (outer `none`). -/
def SlotVec.remove {T : Type} (sv : SlotVec T) (i : Nat) : Option (SlotVec T × Option T) :=
  match sv.slots[i]? with
  | some (.Used v) =>
    some ({ slots := sv.slots.set i (.Unused sv.next_unused_slot_id),
            next_unused_slot_id := some i,
            nb_objects := sv.nb_objects - 1 }, some v)
  | some (.Unused _) => some (sv, none)
  | none => none

/-- main.rs top-level `struct Entity;` (the Database section). -/
inductive Entity
  | mk

/-- main.rs `impl PartialEq for Entity { fn eq(&self, _: &Entity) -> bool { false } }`. -/
def Entity.eq : Entity → Entity → Bool :=
  fun _ _ => false

end MainRs

/-! ### Specification-side predicates -/

/-- The `Object` stored at position `i` of a serialized slot sequence. -/
def serSlotObject (s : List (Option SerObjectData)) (i : Nat) : Option Object :=
  match s[i]? with
  | some (some sd) => some sd.object
  | _ => none

/-- The description stored at position `i` of a serialized slot sequence. -/
def serSlotDescription (s : List (Option SerObjectData)) (i : Nat) : Option String :=
  match s[i]? with
  | some (some sd) => some sd.description
  | _ => none

/-- Whether position `i` of a serialized slot sequence is an occupied slot. -/
def serOccupied (s : List (Option SerObjectData)) (i : Nat) : Bool :=
  (serSlotObject s i).isSome

/-- The `Link` record stored at position `i`, if any. -/
def linkRecordAt (s : List (Option SerObjectData)) (i : Nat) : Option Link :=
  match serSlotObject s i with
  | some (.Link l) => some l
  | _ => none

/-- The `Atom` record stored at position `i`, if any. -/
def atomRecordAt (s : List (Option SerObjectData)) (i : Nat) : Option Atom :=
  match serSlotObject s i with
  | some (.Atom a) => some a
  | _ => none

/-- Whether the record at position `j` is a `Link` with `from = i`. -/
def linkFromAt (s : List (Option SerObjectData)) (j i : Nat) : Bool :=
  match linkRecordAt s j with
  | some l => l.«from» == i
  | none => false

/-- Whether the record at position `j` is a `Link` with `to = i`. -/
def linkToAt (s : List (Option SerObjectData)) (j i : Nat) : Bool :=
  match linkRecordAt s j with
  | some l => l.«to» == i
  | none => false

/-- The record at position `i` is a `Link` with an endpoint that resolves
to an empty or out-of-range slot of the same sequence. -/
def isBadLink (s : List (Option SerObjectData)) (i : Nat) : Bool :=
  match linkRecordAt s i with
  | some l => !(serOccupied s l.«from» && serOccupied s l.«to»)
  | none => false

/-- Occupied `Atom` records of the sequence carry pairwise distinct atom
values (a decidable property). -/
def UniqueAtomRecords (s : List (Option SerObjectData)) : Prop :=
  ∀ i, i < s.length → ∀ j, j < s.length →
    (atomRecordAt s i).isSome = true → atomRecordAt s i = atomRecordAt s j → i = j

/-- Occupied `Link` records of the sequence carry pairwise distinct
endpoint pairs (a decidable property). -/
def UniqueLinkRecords (s : List (Option SerObjectData)) : Prop :=
  ∀ i, i < s.length → ∀ j, j < s.length →
    (linkRecordAt s i).isSome = true → linkRecordAt s i = linkRecordAt s j → i = j

instance (s : List (Option SerObjectData)) : Decidable (UniqueAtomRecords s) := by
  unfold UniqueAtomRecords; infer_instance

instance (s : List (Option SerObjectData)) : Decidable (UniqueLinkRecords s) := by
  unfold UniqueLinkRecords; infer_instance

/-- The `link_indexes` uniqueness index is sound: every registered pair
points at a live slot holding exactly that link. -/
def LinkIdxSound (g : Graph) : Prop :=
  ∀ l i, g.link_indexes l = some i → g.slotObject i = some (.Link l)

/-- The `link_indexes` uniqueness index is complete: every live link slot
is registered at its own index. -/
def LinkIdxComplete (g : Graph) : Prop :=
  ∀ l i, g.slotObject i = some (.Link l) → g.link_indexes l = some i

/-- The `atom_indexes` uniqueness index is sound. -/
def AtomIdxSound (g : Graph) : Prop :=
  ∀ a i, g.atom_indexes a = some i → g.slotObject i = some (.Atom a)

/-- The `atom_indexes` uniqueness index is complete. -/
def AtomIdxComplete (g : Graph) : Prop :=
  ∀ a i, g.slotObject i = some (.Atom a) → g.atom_indexes a = some i

/-- Every live link's endpoints are live. -/
def LinkEndpointsLive (g : Graph) : Prop :=
  ∀ l i, g.slotObject i = some (.Link l) → g.valid l.«from» = true ∧ g.valid l.«to» = true

/-- Back-link exactness: for every live slot `s`, `out_links`/`in_links`
contain exactly the indices of live links with `from`/`to` equal to `s`. -/
def BacklinksExact (g : Graph) : Prop :=
  ∀ s, g.valid s = true →
    (∀ j, j ∈ g.outLinks s ↔ ∃ l, g.slotObject j = some (.Link l) ∧ l.«from» = s) ∧
    (∀ j, j ∈ g.inLinks s ↔ ∃ l, g.slotObject j = some (.Link l) ∧ l.«to» = s)

/-- Full store consistency: uniqueness indices exactly mirror the live
atoms/links, link endpoints are live, back-link sets are exact.  This holds
for every store built by inserts and removals of *unreferenced* elements;
the unguarded removal of a still-referenced non-Link element (see the
removal-guard analysis) is the only operation that can break it. -/
structure WF (g : Graph) : Prop where
  atom_sound : AtomIdxSound g
  atom_complete : AtomIdxComplete g
  link_sound : LinkIdxSound g
  link_complete : LinkIdxComplete g
  endpoints_live : LinkEndpointsLive g
  backlinks : BacklinksExact g

/-- Invariant of the deserialization restore loop: after processing the
indices in `done` (in order), the maps hold exactly the atoms/links of
`done`, and the back-link lists hold exactly the link indices of `done`
with the matching endpoint. -/
structure LoopInv (s : List (Option SerObjectData)) (done : List Nat) (g : Graph) : Prop where
  len_eq : g.objects.length = s.length
  obj_eq : ∀ i, g.slotObject i = serSlotObject s i
  desc_eq : ∀ i, g.slotDescription i = serSlotDescription s i
  atom_map : ∀ a j, g.atom_indexes a = some j ↔ (j ∈ done ∧ serSlotObject s j = some (.Atom a))
  link_map : ∀ l j, g.link_indexes l = some j ↔ (j ∈ done ∧ serSlotObject s j = some (.Link l))
  outl : ∀ i, g.valid i = true → g.outLinks i = done.filter (fun j => linkFromAt s j i)
  inl : ∀ i, g.valid i = true → g.inLinks i = done.filter (fun j => linkToAt s j i)

/-- A store holding a single abstract element at index 0 (obtained by one
`create_abstract` on the empty store). -/
def oneAbstract : Graph := (Graph.new.create_abstract).1

/-- A store holding two abstract elements at indices 0 and 1. -/
def twoAbstract : Graph := (oneAbstract.create_abstract).1

/-- A serialized slot sequence holding two occupied records with the same
atom value, followed by a link record with out-of-range endpoints. -/
def dupAtomSeq : List (Option SerObjectData) :=
  [some { object := Object.Atom (Atom.text "a"), description := "" },
   some { object := Object.Atom (Atom.text "a"), description := "" },
   some { object := Object.Link { «from» := 9, «to» := 9 }, description := "" }]

/-- The two-element store after removing index 1: a single hole at 1. -/
def gHole : Graph :=
  match twoAbstract.remove_object 1 with
  | RemoveResult.ok g => g
  | _ => Graph.new

/-- A one-slot `SlotVec` holding `7` at index 0 (for the slot-reuse
witness). -/
def svW : MainRs.SlotVec Nat :=
  { slots := [MainRs.Slot.Used 7], next_unused_slot_id := none, nb_objects := 1 }

/-- A serialized slot sequence whose first record is a link referring
forward to the occupied slot 1. -/
def fwdSeq : List (Option SerObjectData) :=
  [some { object := Object.Link { «from» := 1, «to» := 1 }, description := "" },
   some { object := Object.Atom (Atom.text "a"), description := "" }]

/-- The spec scenario store: abstract element at 0, atom "PJ" at 1, link
(0,1) at 2. -/
def gScn : Graph :=
  match (Graph.new.create_abstract).1.use_atom (Atom.text "PJ") with
  | some (g1, _) =>
    match g1.use_link { «from» := 0, «to» := 1 } with
    | some (g2, _) => g2
    | none => Graph.new
  | none => Graph.new

/-- A serialized slot sequence with pairwise distinct records whose link
record at slot 1 has out-of-range endpoints. -/
def badSeq : List (Option SerObjectData) :=
  [some { object := Object.Atom (Atom.text "b"), description := "" },
   some { object := Object.Link { «from» := 5, «to» := 5 }, description := "" }]

/-! ### Basic helper lemmas -/

theorem valid_eq_isSome (g : Graph) (i : Index) : g.valid i = (g.slotObject i).isSome := by
  unfold Graph.valid Graph.slotObject
  rcases g.objects[i]? with _ | (_ | d) <;> rfl

theorem valid_iff_exists {g : Graph} {i : Index} :
    g.valid i = true ↔ ∃ d, g.objects[i]? = some (some d) := by
  unfold Graph.valid
  rcases h : g.objects[i]? with _ | (_ | d) <;> simp

theorem observers_congr {g g' : Graph} {j : Index} (h : g'.objects[j]? = g.objects[j]?) :
    g'.slotObject j = g.slotObject j ∧ g'.slotDescription j = g.slotDescription j ∧
    g'.outLinks j = g.outLinks j ∧ g'.inLinks j = g.inLinks j ∧ g'.valid j = g.valid j := by
  unfold Graph.slotObject Graph.slotDescription Graph.outLinks Graph.inLinks Graph.valid
  rw [h]
  exact ⟨rfl, rfl, rfl, rfl, rfl⟩

theorem findFreeSlot_eq_some {l : List (Option ObjectData)} {i : Nat}
    (h : findFreeSlot l = some i) :
    l[i]? = some none ∧ ∀ j, j < i → ∃ d, l[j]? = some (some d) := by
  induction l generalizing i with
  | nil => simp [findFreeSlot] at h
  | cons hd tl ih =>
    cases hd with
    | none =>
      simp [findFreeSlot] at h
      subst h
      exact ⟨by simp, fun j hj => absurd hj (Nat.not_lt_zero j)⟩
    | some d =>
      simp only [findFreeSlot, Option.map_eq_some'] at h
      obtain ⟨i', hi', rfl⟩ := h
      obtain ⟨hnone, hall⟩ := ih hi'
      refine ⟨by simpa using hnone, ?_⟩
      intro j hj
      cases j with
      | zero => exact ⟨d, by simp⟩
      | succ j' =>
        simpa using hall j' (by omega)

theorem findFreeSlot_eq_none {l : List (Option ObjectData)} (h : findFreeSlot l = none) :
    ∀ j, j < l.length → ∃ d, l[j]? = some (some d) := by
  induction l with
  | nil => intro j hj; simp at hj
  | cons hd tl ih =>
    cases hd with
    | none => simp [findFreeSlot] at h
    | some d =>
      simp only [findFreeSlot, Option.map_eq_none'] at h
      intro j hj
      cases j with
      | zero => exact ⟨d, by simp⟩
      | succ j' => simpa using ih h j' (by simpa using hj)

theorem findFreeSlot_first {l : List (Option ObjectData)} {i : Nat}
    (hi : l[i]? = some none) (hbefore : ∀ j, j < i → ∃ d, l[j]? = some (some d)) :
    findFreeSlot l = some i := by
  induction l generalizing i with
  | nil => simp at hi
  | cons hd tl ih =>
    cases i with
    | zero =>
      simp at hi
      subst hi
      rfl
    | succ i' =>
      obtain ⟨d, hd0⟩ := hbefore 0 (Nat.succ_pos _)
      simp at hd0
      subst hd0
      have hrec := ih (by simpa using hi) (fun j hj => by simpa using hbefore (j + 1) (by omega))
      simp [findFreeSlot, hrec]

theorem insert_object_spec {g : Graph} {o : Object} {g' : Graph} {i : Index}
    (h : g.insert_object o = (g', i)) :
    g.slotObject i = none ∧
    g'.objects[i]? = some (some (ObjectData.new o)) ∧
    (∀ j, j ≠ i → g'.objects[j]? = g.objects[j]?) ∧
    g'.atom_indexes = g.atom_indexes ∧ g'.link_indexes = g.link_indexes := by
  unfold Graph.insert_object at h
  cases hf : findFreeSlot g.objects with
  | some k =>
    rw [hf] at h
    obtain ⟨rfl, rfl⟩ := Prod.mk.injEq .. ▸ h
    obtain ⟨hk, -⟩ := findFreeSlot_eq_some hf
    have hklen : k < g.objects.length := by
      by_contra hge
      rw [List.getElem?_eq_none (by omega)] at hk
      exact Option.noConfusion hk
    refine ⟨?_, ?_, ?_, rfl, rfl⟩
    · unfold Graph.slotObject
      rw [hk]
    · show (g.objects.set k _)[k]? = _
      simp [List.getElem?_set_self', hk]
    · intro j hj
      show (g.objects.set k _)[j]? = _
      exact List.getElem?_set_ne (Ne.symm hj)
  | none =>
    rw [hf] at h
    obtain ⟨rfl, rfl⟩ := Prod.mk.injEq .. ▸ h
    refine ⟨?_, ?_, ?_, rfl, rfl⟩
    · unfold Graph.slotObject
      rw [List.getElem?_eq_none (Nat.le_refl _)]
    · show (g.objects ++ [some (ObjectData.new o)])[g.objects.length]? = _
      rw [List.getElem?_append_right (Nat.le_refl _)]
      simp
    · intro j hj
      show (g.objects ++ [some (ObjectData.new o)])[j]? = _
      rcases Nat.lt_or_ge j g.objects.length with hlt | hge
      · simp [List.getElem?_append, hlt]
      · have hgt : g.objects.length < j := Nat.lt_of_le_of_ne hge (Ne.symm hj)
        rw [List.getElem?_eq_none (by simpa using hgt), List.getElem?_eq_none (by omega)]

theorem countP_set_some {l : List (Option ObjectData)} {k : Nat} {x : ObjectData}
    (hk : l[k]? = some none) :
    (l.set k (some x)).countP Option.isSome = l.countP Option.isSome + 1 := by
  induction l generalizing k with
  | nil => simp at hk
  | cons hd tl ih =>
    cases k with
    | zero =>
      simp at hk
      subst hk
      simp [List.countP_cons]
    | succ k' =>
      simp at hk
      simp only [List.set, List.countP_cons, ih hk]
      omega

theorem liveCount_insert_object {g : Graph} {o : Object} {g' : Graph} {i : Index}
    (h : g.insert_object o = (g', i)) : g'.liveCount = g.liveCount + 1 := by
  unfold Graph.insert_object at h
  cases hf : findFreeSlot g.objects with
  | some k =>
    rw [hf] at h
    obtain ⟨rfl, rfl⟩ := Prod.mk.injEq .. ▸ h
    obtain ⟨hk, -⟩ := findFreeSlot_eq_some hf
    exact countP_set_some hk
  | none =>
    rw [hf] at h
    obtain ⟨rfl, rfl⟩ := Prod.mk.injEq .. ▸ h
    show (g.objects ++ [some (ObjectData.new o)]).countP _ = _
    simp [List.countP_append, Graph.liveCount]

theorem register_atom_eq {g : Graph} {i : Index} {a : Atom} (h : g.atom_indexes a = none) :
    g.register_atom i a =
      some { g with atom_indexes := fun a' => if a' = a then some i else g.atom_indexes a' } := by
  unfold Graph.register_atom
  rw [h]
  rfl

theorem register_link_spec {g : Graph} {i : Index} {l : Link}
    (hF : g.valid l.«from» = true) (hT : g.valid l.«to» = true)
    (hm : g.link_indexes l = none) :
    ∃ g', g.register_link i l = some g' ∧
      g'.objects.length = g.objects.length ∧
      (∀ j, g'.slotObject j = g.slotObject j) ∧
      (∀ j, g'.slotDescription j = g.slotDescription j) ∧
      (∀ j, g'.valid j = g.valid j) ∧
      g'.atom_indexes = g.atom_indexes ∧
      g'.link_indexes = (fun l' => if l' = l then some i else g.link_indexes l') ∧
      (∀ s, g'.outLinks s = if s = l.«from» then g.outLinks s ++ [i] else g.outLinks s) ∧
      (∀ s, g'.inLinks s = if s = l.«to» then g.inLinks s ++ [i] else g.inLinks s) := by
  obtain ⟨dF, hdF⟩ := valid_iff_exists.mp hF
  obtain ⟨dT0, hdT0⟩ := valid_iff_exists.mp hT
  have hFlen : l.«from» < g.objects.length := by
    rcases Nat.lt_or_ge l.«from» g.objects.length with hlt | hge
    · exact hlt
    · rw [List.getElem?_eq_none hge] at hdF
      exact Option.noConfusion hdF
  have hTlen : l.«to» < g.objects.length := by
    rcases Nat.lt_or_ge l.«to» g.objects.length with hlt | hge
    · exact hlt
    · rw [List.getElem?_eq_none hge] at hdT0
      exact Option.noConfusion hdT0
  have hm2 : (g.link_indexes l).isSome = false := by rw [hm]; rfl
  unfold Graph.register_link
  simp only [hdF]
  by_cases hc : l.«to» = l.«from»
  · -- self-loop endpoints: both pushes hit the same slot
    rw [hc]
    have h1 : (g.objects.set l.«from»
        (some { dF with out_links := dF.out_links ++ [i] }))[l.«from»]? =
        some (some { dF with out_links := dF.out_links ++ [i] }) := by
      simp [List.getElem?_set_self', hFlen]
    simp only [h1, hm2, Bool.false_eq_true, if_false, List.set_set]
    refine ⟨_, rfl, by simp, ?_, ?_, ?_, rfl, rfl, ?_, ?_⟩
    · intro j
      by_cases hj : j = l.«from»
      · subst hj
        simp [Graph.slotObject, List.getElem?_set_self', hFlen, hdF]
      · simp [Graph.slotObject, List.getElem?_set_ne (Ne.symm hj)]
    · intro j
      by_cases hj : j = l.«from»
      · subst hj
        simp [Graph.slotDescription, List.getElem?_set_self', hFlen, hdF]
      · simp [Graph.slotDescription, List.getElem?_set_ne (Ne.symm hj)]
    · intro j
      by_cases hj : j = l.«from»
      · subst hj
        simp [Graph.valid, List.getElem?_set_self', hFlen, hdF]
      · simp [Graph.valid, List.getElem?_set_ne (Ne.symm hj)]
    · intro s
      by_cases hs : s = l.«from»
      · subst hs
        simp [Graph.outLinks, List.getElem?_set_self', hFlen, hdF]
      · simp [Graph.outLinks, List.getElem?_set_ne (Ne.symm hs), hs]
    · intro s
      by_cases hs : s = l.«from»
      · subst hs
        simp [Graph.inLinks, List.getElem?_set_self', hFlen, hdF]
      · simp [Graph.inLinks, List.getElem?_set_ne (Ne.symm hs), hs]
  · -- distinct endpoint slots
    have h1 : (g.objects.set l.«from»
        (some { dF with out_links := dF.out_links ++ [i] }))[l.«to»]? =
        some (some dT0) := by
      rw [List.getElem?_set_ne (fun e => hc e.symm)]
      exact hdT0
    simp only [h1, hm2, Bool.false_eq_true, if_false]
    have hget : ∀ j, ((g.objects.set l.«from»
        (some { dF with out_links := dF.out_links ++ [i] })).set l.«to»
        (some { dT0 with in_links := dT0.in_links ++ [i] }))[j]? =
        if j = l.«to» then some (some { dT0 with in_links := dT0.in_links ++ [i] })
        else if j = l.«from» then some (some { dF with out_links := dF.out_links ++ [i] })
        else g.objects[j]? := by
      intro j
      by_cases hj1 : j = l.«to»
      · subst hj1
        rw [if_pos rfl]
        simp [List.getElem?_set_self', hTlen]
      · rw [if_neg hj1, List.getElem?_set_ne (Ne.symm hj1)]
        by_cases hj2 : j = l.«from»
        · subst hj2
          rw [if_pos rfl]
          simp [List.getElem?_set_self', hFlen]
        · rw [if_neg hj2, List.getElem?_set_ne (Ne.symm hj2)]
    refine ⟨_, rfl, by simp, ?_, ?_, ?_, rfl, rfl, ?_, ?_⟩
    · intro j
      simp only [Graph.slotObject, hget j]
      by_cases hj1 : j = l.«to»
      · subst hj1
        rw [if_pos rfl, hdT0]
      · by_cases hj2 : j = l.«from»
        · subst hj2
          rw [if_neg hj1, if_pos rfl, hdF]
        · rw [if_neg hj1, if_neg hj2]
    · intro j
      simp only [Graph.slotDescription, hget j]
      by_cases hj1 : j = l.«to»
      · subst hj1
        rw [if_pos rfl, hdT0]
      · by_cases hj2 : j = l.«from»
        · subst hj2
          rw [if_neg hj1, if_pos rfl, hdF]
        · rw [if_neg hj1, if_neg hj2]
    · intro j
      simp only [Graph.valid, hget j]
      by_cases hj1 : j = l.«to»
      · subst hj1
        rw [if_pos rfl, hdT0]
      · by_cases hj2 : j = l.«from»
        · subst hj2
          rw [if_neg hj1, if_pos rfl, hdF]
        · rw [if_neg hj1, if_neg hj2]
    · intro s
      simp only [Graph.outLinks, hget s]
      by_cases hs1 : s = l.«to»
      · subst hs1
        rw [if_pos rfl, if_neg hc, hdT0]
      · by_cases hs2 : s = l.«from»
        · subst hs2
          rw [if_neg hs1, if_pos rfl, if_pos rfl, hdF]
        · rw [if_neg hs1, if_neg hs2, if_neg hs2]
    · intro s
      simp only [Graph.inLinks, hget s]
      by_cases hs1 : s = l.«to»
      · subst hs1
        rw [if_pos rfl, if_pos rfl, hdT0]
      · by_cases hs2 : s = l.«from»
        · subst hs2
          rw [if_neg hs1, if_pos rfl, if_neg hs1, hdF]
        · rw [if_neg hs1, if_neg hs2, if_neg hs1]

theorem use_atom_found {g : Graph} {a : Atom} {i : Index} (h : g.atom_indexes a = some i) :
    g.use_atom a = some (g, i) := by
  unfold Graph.use_atom Graph.get_atom_index
  rw [h]

theorem use_atom_insert {g : Graph} {a : Atom} (h : g.atom_indexes a = none) :
    ∃ g' i, g.use_atom a = some (g', i) ∧
      g.slotObject i = none ∧
      g'.slotObject i = some (.Atom a) ∧
      (∀ j, j ≠ i → g'.objects[j]? = g.objects[j]?) ∧
      g'.atom_indexes = (fun a' => if a' = a then some i else g.atom_indexes a') ∧
      g'.link_indexes = g.link_indexes ∧
      g'.liveCount = g.liveCount + 1 := by
  obtain ⟨g1, i, hp⟩ : ∃ g1 i, g.insert_object (Object.Atom a) = (g1, i) := ⟨_, _, rfl⟩
  obtain ⟨hnone, hIobj, hIother, hIatoms, hIlinks⟩ := insert_object_spec hp
  have hmap : g1.atom_indexes a = none := by rw [hIatoms]; exact h
  unfold Graph.use_atom Graph.get_atom_index
  rw [h]
  simp only [hp]
  rw [register_atom_eq hmap]
  simp only [Option.map_some']
  refine ⟨_, i, rfl, hnone, ?_, ?_, ?_, hIlinks, ?_⟩
  · simp only [Graph.slotObject, hIobj]
    rfl
  · intro j hj
    exact hIother j hj
  · show (fun a' => if a' = a then some i else g1.atom_indexes a') = _
    rw [hIatoms]
  · have hlc := liveCount_insert_object hp
    exact hlc

theorem use_link_found {g : Graph} {l : Link} {i : Index}
    (hF : g.valid l.«from» = true) (hT : g.valid l.«to» = true)
    (h : g.link_indexes l = some i) :
    g.use_link l = some (g, Except.ok i) := by
  unfold Graph.use_link Graph.get_link_index
  rw [hF, hT, h]
  rfl

theorem use_link_invalid {g : Graph} {l : Link}
    (h : (g.valid l.«from» && g.valid l.«to») = false) :
    g.use_link l = some (g, Except.error Error.InvalidIndex) := by
  unfold Graph.use_link
  rw [h]
  rfl

theorem use_link_insert {g : Graph} {l : Link}
    (hF : g.valid l.«from» = true) (hT : g.valid l.«to» = true)
    (hm : g.link_indexes l = none) :
    ∃ g' i, g.use_link l = some (g', Except.ok i) ∧
      g.slotObject i = none ∧ l.«from» ≠ i ∧ l.«to» ≠ i ∧
      g'.slotObject i = some (.Link l) ∧ g'.valid i = true ∧
      g'.outLinks i = [] ∧ g'.inLinks i = [] ∧ g'.slotDescription i = some "" ∧
      (∀ j, j ≠ i → g'.slotObject j = g.slotObject j) ∧
      (∀ j, j ≠ i → g'.slotDescription j = g.slotDescription j) ∧
      (∀ j, j ≠ i → g'.valid j = g.valid j) ∧
      g'.atom_indexes = g.atom_indexes ∧
      g'.link_indexes = (fun l' => if l' = l then some i else g.link_indexes l') ∧
      (∀ s, s ≠ i → g'.outLinks s = if s = l.«from» then g.outLinks s ++ [i] else g.outLinks s) ∧
      (∀ s, s ≠ i → g'.inLinks s = if s = l.«to» then g.inLinks s ++ [i] else g.inLinks s) := by
  obtain ⟨g1, i, hp⟩ : ∃ g1 i, g.insert_object (Object.Link l) = (g1, i) := ⟨_, _, rfl⟩
  obtain ⟨hnone, hIobj, hIother, hIatoms, hIlinks⟩ := insert_object_spec hp
  have hFi : l.«from» ≠ i := by
    intro e
    rw [valid_eq_isSome, e, hnone] at hF
    exact Bool.noConfusion hF
  have hTi : l.«to» ≠ i := by
    intro e
    rw [valid_eq_isSome, e, hnone] at hT
    exact Bool.noConfusion hT
  have hF1 : g1.valid l.«from» = true := by
    rw [(observers_congr (hIother _ hFi)).2.2.2.2]
    exact hF
  have hT1 : g1.valid l.«to» = true := by
    rw [(observers_congr (hIother _ hTi)).2.2.2.2]
    exact hT
  have hm1 : g1.link_indexes l = none := by rw [hIlinks]; exact hm
  obtain ⟨g2, hreg, hlen, hobj, hdesc, hvalid, hatoms, hlinks, hout, hin⟩ :=
    register_link_spec hF1 hT1 hm1 (i := i)
  have hobj1 : g1.slotObject i = some (.Link l) := by
    simp only [Graph.slotObject, hIobj]
    rfl
  unfold Graph.use_link Graph.get_link_index
  rw [hF, hT, hm]
  simp only [hp]
  rw [hreg]
  simp only [Option.map_some']
  refine ⟨g2, i, rfl, hnone, hFi, hTi, ?_, ?_, ?_, ?_, ?_, ?_, ?_, ?_, ?_, ?_, ?_, ?_⟩
  · rw [hobj i]
    exact hobj1
  · rw [hvalid i, valid_eq_isSome, hobj1]
    rfl
  · rw [hout i, if_neg (Ne.symm hFi)]
    simp only [Graph.outLinks, hIobj]
    rfl
  · rw [hin i, if_neg (Ne.symm hTi)]
    simp only [Graph.inLinks, hIobj]
    rfl
  · rw [hdesc i]
    simp only [Graph.slotDescription, hIobj]
    rfl
  · intro j hj
    rw [hobj j]
    exact (observers_congr (hIother j hj)).1
  · intro j hj
    rw [hdesc j]
    exact (observers_congr (hIother j hj)).2.1
  · intro j hj
    rw [hvalid j]
    exact (observers_congr (hIother j hj)).2.2.2.2
  · rw [hatoms]
    exact hIatoms
  · rw [hlinks, hIlinks]
  · intro s hs
    rw [hout s]
    have hgs : g1.outLinks s = g.outLinks s := (observers_congr (hIother s hs)).2.2.1
    by_cases h2 : s = l.«from»
    · rw [if_pos h2, if_pos h2, hgs]
    · rw [if_neg h2, if_neg h2, hgs]
  · intro s hs
    rw [hin s]
    have hgs : g1.inLinks s = g.inLinks s := (observers_congr (hIother s hs)).2.2.2.1
    by_cases h2 : s = l.«to»
    · rw [if_pos h2, if_pos h2, hgs]
    · rw [if_neg h2, if_neg h2, hgs]

/-! ### Claim theorems (first batch) -/

/-- Claim C1 (code bug): the spec requires `remove(a)`/`remove(b)` to fail
with `CannotRemoveLinked` while the link `l = use_link(a,b)` is live, for
any element kind with non-empty back-reference sets.  The code's guard in
`Graph::remove_object` tests `object.is_link()` on the element being
removed, so it only protects Links: in the scenario
`a = use_atom("x") = 0`, `b = create_abstract() = 1`,
`l = use_link(a,b) = 2`, both `remove(a)` and `remove(b)` succeed while
`l` is live (the claim says they must fail), leaving `l` dangling; the
subsequent `remove(l)` then panics on `unwrap` of the freed endpoint slot,
which contradicts the code's own no-panic error design. -/
theorem claim_C1_removal_guard_bug :
    ∃ gA gB gL gAfter,
      Graph.new.use_atom (Atom.text "x") = some (gA, 0) ∧
      gA.create_abstract = (gB, 1) ∧
      gB.use_link { «from» := 0, «to» := 1 } = some (gL, Except.ok 2) ∧
      gL.outLinks 0 = [2] ∧ gL.inLinks 1 = [2] ∧
      gL.remove_object 0 = RemoveResult.ok gAfter ∧
      (gL.remove_object 1).isOk = true ∧
      gAfter.remove_object 2 = RemoveResult.crash :=
  ⟨_, _, _, _, rfl, rfl, rfl, rfl, rfl, rfl, rfl, rfl⟩

/-- Claim C2 (code bug): the back-link invariant — `out_links` of every
live slot `s` equals the set of live link indices with `from = s` — is
broken by an insert/remove sequence: after `use_atom "x" = 0`,
`create_abstract = 1`, `use_link(0,1) = 2`, `remove(0)` (which succeeds by
the unguarded-removal bug) and `use_atom "y"` (which reuses slot 0), the
store has the live link 2 with `from = 0` while the live slot 0 has empty
`out_links`. -/
theorem claim_C2_backlink_invariant_bug :
    ∃ gA gB gL g4 g5,
      Graph.new.use_atom (Atom.text "x") = some (gA, 0) ∧
      gA.create_abstract = (gB, 1) ∧
      gB.use_link { «from» := 0, «to» := 1 } = some (gL, Except.ok 2) ∧
      gL.remove_object 0 = RemoveResult.ok g4 ∧
      g4.use_atom (Atom.text "y") = some (g5, 0) ∧
      g5.valid 0 = true ∧ g5.valid 2 = true ∧
      g5.slotObject 2 = some (Object.Link { «from» := 0, «to» := 1 }) ∧
      g5.outLinks 0 = [] :=
  ⟨_, _, _, _, _, rfl, rfl, rfl, rfl, rfl, rfl, rfl, rfl, rfl⟩

/-- Claim C3 counterexample: a store reachable by four valid operations
(each returning success) whose encode/decode round-trip fails with a
deserialization error instead of reproducing the store: `remove(0)`
succeeds on the still-referenced atom (the removal-guard bug), so the
serialized form contains the live link 2 with a dangling `from` endpoint
and `decode` rejects it at slot 2. -/
theorem claim_C3_roundtrip_cex :
    ∃ gA gB gL g4,
      Graph.new.use_atom (Atom.text "x") = some (gA, 0) ∧
      gA.create_abstract = (gB, 1) ∧
      gB.use_link { «from» := 0, «to» := 1 } = some (gL, Except.ok 2) ∧
      gL.remove_object 0 = RemoveResult.ok g4 ∧
      decode (encode g4) = DecodeResult.error 2 ∧
      (decode (encode g4)).isOk = false :=
  ⟨_, _, _, _, rfl, rfl, rfl, rfl, rfl, rfl⟩

/-- Claim C4: `use_link(x, y)` where `y` is not a live index returns
`InvalidIndex` and leaves the store exactly unchanged (the result store is
`g` itself, so no slot is allocated, no uniqueness-index entry is added,
and no back-link set is modified). -/
theorem claim_C4_invalid_endpoint (g : Graph) (x y : Index) (h : g.valid y = false) :
    g.use_link { «from» := x, «to» := y } = some (g, Except.error Error.InvalidIndex) := by
  apply use_link_invalid
  simp [h]

/-- Witness for claim C4 at a concrete store: index 5 is not live in the
one-element store. -/
theorem claim_C4_invalid_endpoint_witness :
    oneAbstract.valid 5 = false ∧
    oneAbstract.use_link { «from» := 0, «to» := 5 } =
      some (oneAbstract, Except.error Error.InvalidIndex) :=
  ⟨rfl, claim_C4_invalid_endpoint oneAbstract 0 5 rfl⟩

/-- Claim C6: `use_atom(a)` is idempotent — called twice in succession it
returns the same index both times, and the live element count grows by
exactly one across both calls when `a` was not already present
(per the `atom_indexes` lookup) and is unchanged when it was. -/
theorem claim_C6_atom_dedup (g : Graph) (a : Atom) :
    ∃ g1 i1 g2 i2,
      g.use_atom a = some (g1, i1) ∧ g1.use_atom a = some (g2, i2) ∧ i1 = i2 ∧
      g2.liveCount = g.liveCount + (if (g.atom_indexes a).isSome then 0 else 1) := by
  cases h : g.atom_indexes a with
  | some i =>
    refine ⟨g, i, g, i, use_atom_found h, use_atom_found h, rfl, ?_⟩
    rfl
  | none =>
    obtain ⟨g1, i, h1, -, -, -, hmap, -, hcount⟩ := use_atom_insert h
    have h2 : g1.atom_indexes a = some i := by rw [hmap]; simp
    refine ⟨g1, i, g1, i, h1, use_atom_found h2, rfl, ?_⟩
    simpa [h] using hcount

/-- Claim C7 counterexample: the claim quantifies over all live indices
`x, y` and asserts `use_link(x,y)` and `use_link(y,x)` return different
indices, but at `x = y = 0` (a live index of the one-element store) the
two calls coincide and both return index 1. -/
theorem claim_C7_link_identity_cex :
    oneAbstract.valid 0 = true ∧
    ∃ g1 g2,
      oneAbstract.use_link { «from» := 0, «to» := 0 } = some (g1, Except.ok 1) ∧
      g1.use_link { «from» := 0, «to» := 0 } = some (g2, Except.ok 1) :=
  ⟨rfl, _, _, rfl, rfl⟩

/-- Claim C8 counterexample: on a slot sequence holding two records with
the same atom value and a link record with out-of-range endpoints,
decoding neither succeeds nor fails with a slot-identifying error — the
`assert_eq!(old, None)` in `register_atom` panics first — refuting the
claimed "fails with an error ... exactly when some occupied Link record
has an invalid endpoint". -/
theorem claim_C8_decode_validation_cex :
    isBadLink dupAtomSeq 2 = true ∧
    decode dupAtomSeq = DecodeResult.crash ∧
    (decode dupAtomSeq).isError = false ∧
    (decode dupAtomSeq).isOk = false :=
  ⟨rfl, rfl, rfl, rfl⟩

/-- Claim C9: equality on the `Entity` payload (main.rs
`impl PartialEq for Entity`) is constantly `false` — any two entities,
including an entity compared with itself, compare unequal, so entities are
never merged by value comparison. -/
theorem claim_C9_entity_noncomparable (e₁ e₂ : MainRs.Entity) :
    MainRs.Entity.eq e₁ e₂ = false := rfl

/-- Claim C5 counterexample: slot reuse in graph.rs is *not*
most-recently-freed-first.  Free indices 1 then 3 (so 3 is the most
recently freed); the next insertion reuses index 1, the lowest free slot,
not 3. -/
theorem claim_C5_slot_reuse_cex :
    ∃ g1 g2 g3 g4 g5 g6,
      Graph.new.create_abstract = (g1, 0) ∧
      g1.create_abstract = (g2, 1) ∧
      g2.create_abstract = (g3, 2) ∧
      g3.create_abstract = (g4, 3) ∧
      g4.remove_object 1 = RemoveResult.ok g5 ∧
      g5.remove_object 3 = RemoveResult.ok g6 ∧
      (g6.create_abstract).2 = 1 ∧ (1 : Index) ≠ 3 :=
  ⟨_, _, _, _, _, _, rfl, rfl, rfl, rfl, rfl, rfl, rfl, by decide⟩

/-- Claim C5 (amended): freed slots are reused before the slot array
grows, but the reuse order differs per implementation: `Graph` (graph.rs)
reuses the *lowest-index* free slot (first part: if `i` is free and all
lower slots are occupied, insertion returns `i` without growing the
array), while `SlotVec` (main.rs) reuses the *most recently freed* slot
(second part: after `remove i`, the next `insert` returns `i`, whatever
the free list held before).  In particular, after `remove(i)` on a store
with no other holes, the next insertion returns `i` in both. -/
theorem claim_C5_slot_reuse_amended :
    (∀ (g : Graph) (o : Object) (i : Index),
      g.objects[i]? = some none →
      (∀ j, j < i → ∃ d, g.objects[j]? = some (some d)) →
      (g.insert_object o).2 = i ∧
        (g.insert_object o).1.objects.length = g.objects.length) ∧
    (∀ (T : Type) (sv : MainRs.SlotVec T) (i : Nat) (v w : T),
      sv.slots[i]? = some (MainRs.Slot.Used v) →
      ∃ sv', sv.remove i = some (sv', some v) ∧
        ∃ sv'', sv'.insert w = some (sv'', i)) := by
  constructor
  · intro g o i hi hbefore
    have hf := findFreeSlot_first hi hbefore
    unfold Graph.insert_object
    rw [hf]
    exact ⟨rfl, by simp⟩
  · intro T sv i v w hi
    have hlen : i < sv.slots.length := by
      rcases Nat.lt_or_ge i sv.slots.length with hlt | hge
      · exact hlt
      · rw [List.getElem?_eq_none hge] at hi
        exact Option.noConfusion hi
    have hset : (sv.slots.set i (MainRs.Slot.Unused sv.next_unused_slot_id))[i]? =
        some (MainRs.Slot.Unused sv.next_unused_slot_id) := by
      simp [List.getElem?_set_self', hlen]
    refine ⟨{ slots := sv.slots.set i (MainRs.Slot.Unused sv.next_unused_slot_id),
              next_unused_slot_id := some i, nb_objects := sv.nb_objects - 1 }, ?_,
            { slots := (sv.slots.set i (MainRs.Slot.Unused sv.next_unused_slot_id)).set i
                (MainRs.Slot.Used w),
              next_unused_slot_id := sv.next_unused_slot_id,
              nb_objects := sv.nb_objects - 1 + 1 }, ?_⟩
    · unfold MainRs.SlotVec.remove
      rw [hi]
    · unfold MainRs.SlotVec.insert
      simp only [hset]

/-- Witness for the amended claim C5: a two-element store with a hole at
index 1 reuses slot 1 without growing, and a one-slot `SlotVec` reuses the
slot freed by `remove 0`. -/
theorem claim_C5_slot_reuse_amended_witness :
    ((gHole.insert_object Object.Abstract).2 = 1 ∧
      (gHole.insert_object Object.Abstract).1.objects.length = gHole.objects.length) ∧
    (∃ sv', svW.remove 0 = some (sv', some 7) ∧
      ∃ sv'', sv'.insert 9 = some (sv'', 0)) :=
  ⟨claim_C5_slot_reuse_amended.1 gHole Object.Abstract 1 rfl
      (fun j hj => by
        have hj0 : j = 0 := Nat.lt_one_iff.mp hj
        subst hj0
        exact ⟨_, rfl⟩),
   claim_C5_slot_reuse_amended.2 Nat svW 0 7 9 rfl⟩

/-- Claim C7 (amended): for all live indices `x ≠ y` of a store whose
link uniqueness index is sound, `use_link(x,y)` called twice returns the
same index both times, and `use_link(x,y)` followed by `use_link(y,x)`
returns two different indices (the ordered endpoint pair is the identity
of a link).  The claim as frozen omits `x ≠ y` and is refuted at `x = y`,
where both calls coincide. -/
theorem claim_C7_link_identity_amended (g : Graph) (x y : Index)
    (hS : LinkIdxSound g) (hx : g.valid x = true) (hy : g.valid y = true) (hxy : x ≠ y) :
    ∃ g1 i1,
      g.use_link { «from» := x, «to» := y } = some (g1, Except.ok i1) ∧
      (∃ g2, g1.use_link { «from» := x, «to» := y } = some (g2, Except.ok i1)) ∧
      (∃ g2 i2, g1.use_link { «from» := y, «to» := x } = some (g2, Except.ok i2) ∧ i1 ≠ i2) := by
  have hne : ({ «from» := x, «to» := y } : Link) ≠ { «from» := y, «to» := x } := by
    intro e
    exact hxy (congrArg Link.«from» e)
  cases h1 : g.link_indexes { «from» := x, «to» := y } with
  | some i =>
    have hslot1 := hS _ _ h1
    refine ⟨g, i, use_link_found hx hy h1, ⟨g, use_link_found hx hy h1⟩, ?_⟩
    cases h2 : g.link_indexes { «from» := y, «to» := x } with
    | some i2 =>
      have hslot2 := hS _ _ h2
      refine ⟨g, i2, use_link_found hy hx h2, ?_⟩
      intro e
      rw [← e] at hslot2
      rw [hslot1] at hslot2
      simp only [Option.some.injEq, Object.Link.injEq] at hslot2
      exact hne hslot2
    | none =>
      obtain ⟨g2, i2, hcall2, hfresh2, -, -, -, -, -, -, -, -, -, -, -, -, -, -⟩ :=
        use_link_insert (g := g) (l := { «from» := y, «to» := x }) hy hx h2
      refine ⟨g2, i2, hcall2, ?_⟩
      intro e
      rw [← e] at hfresh2
      rw [hslot1] at hfresh2
      exact Option.noConfusion hfresh2
  | none =>
    obtain ⟨g1, i1, hcall, hfresh, hxi, hyi, hobj1, hvalid1, -, -, -, hpresO, -, hpresV, -,
        hlinks, -, -⟩ := use_link_insert (g := g) hx hy h1
    have hx1 : g1.valid x = true := by rw [hpresV x hxi]; exact hx
    have hy1 : g1.valid y = true := by rw [hpresV y hyi]; exact hy
    have hmap1 : g1.link_indexes { «from» := x, «to» := y } = some i1 := by
      rw [hlinks]
      simp
    refine ⟨g1, i1, hcall, ⟨g1, use_link_found hx1 hy1 hmap1⟩, ?_⟩
    cases h2 : g.link_indexes { «from» := y, «to» := x } with
    | some i2 =>
      have hmap2 : g1.link_indexes { «from» := y, «to» := x } = some i2 := by
        simp only [hlinks]
        rw [if_neg (fun e => hne e.symm)]
        exact h2
      have hslot2 := hS _ _ h2
      refine ⟨g1, i2, use_link_found hy1 hx1 hmap2, ?_⟩
      intro e
      rw [← e] at hslot2
      rw [hfresh] at hslot2
      exact Option.noConfusion hslot2
    | none =>
      have hmap2 : g1.link_indexes { «from» := y, «to» := x } = none := by
        simp only [hlinks]
        rw [if_neg (fun e => hne e.symm)]
        exact h2
      obtain ⟨g2, i2, hcall2, hfresh2, -, -, -, -, -, -, -, -, -, -, -, -, -, -⟩ :=
        use_link_insert hy1 hx1 hmap2
      refine ⟨g2, i2, hcall2, ?_⟩
      intro e
      rw [← e] at hfresh2
      rw [hobj1] at hfresh2
      exact Option.noConfusion hfresh2

/-- Witness for amended claim C7 at the two-element store with
`x = 0 ≠ 1 = y`. -/
theorem claim_C7_link_identity_amended_witness :
    ∃ g1 i1,
      twoAbstract.use_link { «from» := 0, «to» := 1 } = some (g1, Except.ok i1) ∧
      (∃ g2, g1.use_link { «from» := 0, «to» := 1 } = some (g2, Except.ok i1)) ∧
      (∃ g2 i2, g1.use_link { «from» := 1, «to» := 0 } = some (g2, Except.ok i2) ∧ i1 ≠ i2) :=
  claim_C7_link_identity_amended twoAbstract 0 1
    (fun _ _ h => Option.noConfusion h) rfl rfl (by decide)

/-- Claim C10: self-loop links are permitted: for every live index `x` of
a store with a sound link index and exact back-link sets, `use_link(x,x)`
succeeds, returns the index of a live Link with `from = to = x`, and that
index appears in both the `in_links` and the `out_links` set of the
element at `x`. -/
theorem claim_C10_self_loop (g : Graph) (x : Index)
    (hS : LinkIdxSound g) (hB : BacklinksExact g) (hx : g.valid x = true) :
    ∃ g' j,
      g.use_link { «from» := x, «to» := x } = some (g', Except.ok j) ∧
      g'.valid j = true ∧
      g'.slotObject j = some (Object.Link { «from» := x, «to» := x }) ∧
      j ∈ g'.outLinks x ∧ j ∈ g'.inLinks x := by
  cases h : g.link_indexes { «from» := x, «to» := x } with
  | some i =>
    have hslot := hS _ _ h
    have hvi : g.valid i = true := by rw [valid_eq_isSome, hslot]; rfl
    refine ⟨g, i, use_link_found hx hx h, hvi, hslot, ?_, ?_⟩
    · exact ((hB x hx).1 i).mpr ⟨_, hslot, rfl⟩
    · exact ((hB x hx).2 i).mpr ⟨_, hslot, rfl⟩
  | none =>
    obtain ⟨g', i, hcall, hfresh, hxi, hyi, hobj, hvalidi, -, -, -, -, -, -, -, -, hout, hin⟩ :=
      use_link_insert hx hx h
    refine ⟨g', i, hcall, hvalidi, hobj, ?_, ?_⟩
    · rw [hout x hxi, if_pos rfl]
      simp
    · rw [hin x hyi, if_pos rfl]
      simp

/-- Witness for claim C10 at the one-element store with `x = 0`. -/
theorem claim_C10_self_loop_witness :
    ∃ g' j,
      oneAbstract.use_link { «from» := 0, «to» := 0 } = some (g', Except.ok j) ∧
      g'.valid j = true ∧
      g'.slotObject j = some (Object.Link { «from» := 0, «to» := 0 }) ∧
      j ∈ g'.outLinks 0 ∧ j ∈ g'.inLinks 0 :=
  claim_C10_self_loop oneAbstract 0 (fun _ _ h => Option.noConfusion h)
    (by
      intro s hs
      have hout : oneAbstract.outLinks s = [] := by cases s <;> rfl
      have hin : oneAbstract.inLinks s = [] := by cases s <;> rfl
      have hnolink : ∀ j, ¬ ∃ l, oneAbstract.slotObject j = some (Object.Link l) := by
        intro j hex
        obtain ⟨l, hl⟩ := hex
        cases j with
        | zero => exact Object.noConfusion (Option.some.inj hl)
        | succ n => exact Option.noConfusion hl
      refine ⟨fun j => ⟨fun hj => ?_, fun hex => ?_⟩, fun j => ⟨fun hj => ?_, fun hex => ?_⟩⟩
      · rw [hout] at hj
        exact absurd hj (List.not_mem_nil j)
      · exact absurd ⟨hex.choose, hex.choose_spec.1⟩ (hnolink j)
      · rw [hin] at hj
        exact absurd hj (List.not_mem_nil j)
      · exact absurd ⟨hex.choose, hex.choose_spec.1⟩ (hnolink j))
    rfl

/-! ### Serialization helper lemmas -/

theorem lt_of_getElem?_eq_some {α : Type _} {l : List α} {i : Nat} {a : α}
    (h : l[i]? = some a) : i < l.length := by
  rcases Nat.lt_or_ge i l.length with hlt | hge
  · exact hlt
  · rw [List.getElem?_eq_none hge] at h
    exact Option.noConfusion h

theorem serSlotObject_encode (g : Graph) (i : Nat) :
    serSlotObject (encode g) i = g.slotObject i := by
  unfold serSlotObject encode Graph.slotObject
  rw [List.getElem?_map]
  rcases g.objects[i]? with _ | (_ | d) <;> rfl

theorem serSlotDescription_encode (g : Graph) (i : Nat) :
    serSlotDescription (encode g) i = g.slotDescription i := by
  unfold serSlotDescription encode Graph.slotDescription
  rw [List.getElem?_map]
  rcases g.objects[i]? with _ | (_ | d) <;> rfl

theorem length_encode (g : Graph) : (encode g).length = g.objects.length := by
  simp [encode]

theorem serSlot_lt {s : List (Option SerObjectData)} {i : Nat} {o : Object}
    (h : serSlotObject s i = some o) : i < s.length := by
  unfold serSlotObject at h
  cases hx : s[i]? with
  | none =>
    simp only [hx] at h
    exact Option.noConfusion h
  | some x => exact lt_of_getElem?_eq_some hx

theorem linkRecordAt_some_iff {s : List (Option SerObjectData)} {i : Nat} {l : Link} :
    linkRecordAt s i = some l ↔ serSlotObject s i = some (Object.Link l) := by
  unfold linkRecordAt
  rcases serSlotObject s i with _ | (a | l0 | _) <;> simp

theorem atomRecordAt_some_iff {s : List (Option SerObjectData)} {i : Nat} {a : Atom} :
    atomRecordAt s i = some a ↔ serSlotObject s i = some (Object.Atom a) := by
  unfold atomRecordAt
  rcases serSlotObject s i with _ | (a0 | l0 | _) <;> simp

theorem linkFromAt_true_iff {s : List (Option SerObjectData)} {j t : Nat} :
    linkFromAt s j t = true ↔
      ∃ l, serSlotObject s j = some (Object.Link l) ∧ l.«from» = t := by
  unfold linkFromAt linkRecordAt
  rcases serSlotObject s j with _ | (a0 | l0 | _) <;> simp

theorem linkToAt_true_iff {s : List (Option SerObjectData)} {j t : Nat} :
    linkToAt s j t = true ↔
      ∃ l, serSlotObject s j = some (Object.Link l) ∧ l.«to» = t := by
  unfold linkToAt linkRecordAt
  rcases serSlotObject s j with _ | (a0 | l0 | _) <;> simp

theorem outLinks_nil_of_valid_false {g : Graph} {t : Index} (h : g.valid t = false) :
    g.outLinks t = [] := by
  unfold Graph.valid at h
  unfold Graph.outLinks
  cases hx : g.objects[t]? with
  | none => rfl
  | some o =>
    cases o with
    | none => rfl
    | some d =>
      simp only [hx] at h
      exact Bool.noConfusion h

theorem inLinks_nil_of_valid_false {g : Graph} {t : Index} (h : g.valid t = false) :
    g.inLinks t = [] := by
  unfold Graph.valid at h
  unfold Graph.inLinks
  cases hx : g.objects[t]? with
  | none => rfl
  | some o =>
    cases o with
    | none => rfl
    | some d =>
      simp only [hx] at h
      exact Bool.noConfusion h

theorem LoopInv.valid_eq {s : List (Option SerObjectData)} {done : List Nat} {g : Graph}
    (inv : LoopInv s done g) (t : Nat) : g.valid t = serOccupied s t := by
  rw [valid_eq_isSome, inv.obj_eq t]
  rfl

theorem loopInv_init (s : List (Option SerObjectData)) :
    LoopInv s []
      { objects := initObjects s, atom_indexes := fun _ => none,
        link_indexes := fun _ => none } := by
  refine ⟨by simp [initObjects], ?_, ?_, ?_, ?_, ?_, ?_⟩
  · intro i
    unfold Graph.slotObject serSlotObject initObjects
    rw [List.getElem?_map]
    rcases s[i]? with _ | (_ | sd) <;> rfl
  · intro i
    unfold Graph.slotDescription serSlotDescription initObjects
    rw [List.getElem?_map]
    rcases s[i]? with _ | (_ | sd) <;> rfl
  · intro a j
    simp
  · intro l j
    simp
  · intro i _
    show Graph.outLinks _ i = _
    unfold Graph.outLinks initObjects
    rw [List.getElem?_map]
    rcases s[i]? with _ | (_ | sd) <;> simp
  · intro i _
    show Graph.inLinks _ i = _
    unfold Graph.inLinks initObjects
    rw [List.getElem?_map]
    rcases s[i]? with _ | (_ | sd) <;> simp

theorem uniqueAtoms_eq {s : List (Option SerObjectData)} (hA : UniqueAtomRecords s)
    {i j : Nat} {a : Atom}
    (hi : serSlotObject s i = some (Object.Atom a))
    (hj : serSlotObject s j = some (Object.Atom a)) : i = j := by
  have hi' : atomRecordAt s i = some a := atomRecordAt_some_iff.mpr hi
  have hj' : atomRecordAt s j = some a := atomRecordAt_some_iff.mpr hj
  exact hA i (serSlot_lt hi) j (serSlot_lt hj) (by rw [hi']; rfl) (by rw [hi', hj'])

theorem uniqueLinks_eq {s : List (Option SerObjectData)} (hL : UniqueLinkRecords s)
    {i j : Nat} {l : Link}
    (hi : serSlotObject s i = some (Object.Link l))
    (hj : serSlotObject s j = some (Object.Link l)) : i = j := by
  have hi' : linkRecordAt s i = some l := linkRecordAt_some_iff.mpr hi
  have hj' : linkRecordAt s j = some l := linkRecordAt_some_iff.mpr hj
  exact hL i (serSlot_lt hi) j (serSlot_lt hj) (by rw [hi']; rfl) (by rw [hi', hj'])

theorem LoopInv.extend_inert {s : List (Option SerObjectData)} {done : List Nat} {g : Graph}
    {i : Nat} (inv : LoopInv s done g)
    (ha : atomRecordAt s i = none) (hl : linkRecordAt s i = none) :
    LoopInv s (done ++ [i]) g := by
  refine ⟨inv.len_eq, inv.obj_eq, inv.desc_eq, ?_, ?_, ?_, ?_⟩
  · intro a j
    rw [inv.atom_map a j]
    constructor
    · rintro ⟨hj, hsj⟩
      exact ⟨List.mem_append_left _ hj, hsj⟩
    · rintro ⟨hj, hsj⟩
      rcases List.mem_append.mp hj with hj | hj
      · exact ⟨hj, hsj⟩
      · have hji : j = i := List.mem_singleton.mp hj
        subst hji
        have h2 := atomRecordAt_some_iff.mpr hsj
        rw [ha] at h2
        exact Option.noConfusion h2
  · intro l j
    rw [inv.link_map l j]
    constructor
    · rintro ⟨hj, hsj⟩
      exact ⟨List.mem_append_left _ hj, hsj⟩
    · rintro ⟨hj, hsj⟩
      rcases List.mem_append.mp hj with hj | hj
      · exact ⟨hj, hsj⟩
      · have hji : j = i := List.mem_singleton.mp hj
        subst hji
        have h2 := linkRecordAt_some_iff.mpr hsj
        rw [hl] at h2
        exact Option.noConfusion h2
  · intro t hv
    rw [inv.outl t hv, List.filter_append]
    have hf : linkFromAt s i t = false := by
      unfold linkFromAt
      rw [hl]
    simp [hf]
  · intro t hv
    rw [inv.inl t hv, List.filter_append]
    have hf : linkToAt s i t = false := by
      unfold linkToAt
      rw [hl]
    simp [hf]

theorem decodeStep_eq_empty {g : Graph} {i : Nat} (h : g.slotObject i = none) :
    decodeStep g i = DecodeResult.ok g := by
  unfold decodeStep
  rw [h]

theorem decodeStep_eq_abstract {g : Graph} {i : Nat}
    (h : g.slotObject i = some Object.Abstract) : decodeStep g i = DecodeResult.ok g := by
  unfold decodeStep
  rw [h]

theorem decodeStep_eq_atom {g : Graph} {i : Nat} {a : Atom}
    (h : g.slotObject i = some (Object.Atom a)) :
    decodeStep g i =
      match g.register_atom i a with
      | some g' => DecodeResult.ok g'
      | none => DecodeResult.crash := by
  unfold decodeStep
  rw [h]

theorem decodeStep_eq_link_valid {g : Graph} {i : Nat} {l : Link}
    (h : g.slotObject i = some (Object.Link l))
    (hcond : (g.valid l.«from» && g.valid l.«to») = true) :
    decodeStep g i =
      match g.register_link i l with
      | some g' => DecodeResult.ok g'
      | none => DecodeResult.crash := by
  unfold decodeStep
  rw [h]
  show (if (g.valid l.«from» && g.valid l.«to») = true then
      (match g.register_link i l with
      | some g' => DecodeResult.ok g'
      | none => DecodeResult.crash)
    else DecodeResult.error i) = _
  rw [hcond]
  rfl

theorem decodeStep_eq_link_invalid {g : Graph} {i : Nat} {l : Link}
    (h : g.slotObject i = some (Object.Link l))
    (hcond : (g.valid l.«from» && g.valid l.«to») = false) :
    decodeStep g i = DecodeResult.error i := by
  unfold decodeStep
  rw [h]
  show (if (g.valid l.«from» && g.valid l.«to») = true then
      (match g.register_link i l with
      | some g' => DecodeResult.ok g'
      | none => DecodeResult.crash)
    else DecodeResult.error i) = _
  rw [hcond]
  rfl

theorem decodeStep_ok {s : List (Option SerObjectData)} {done : List Nat} {g : Graph} {i : Nat}
    (inv : LoopInv s done g) (hA : UniqueAtomRecords s) (hL : UniqueLinkRecords s)
    (hdone : i ∉ done) (hbad : isBadLink s i = false) :
    ∃ g', decodeStep g i = DecodeResult.ok g' ∧ LoopInv s (done ++ [i]) g' := by
  have hobj := inv.obj_eq i
  cases ho : serSlotObject s i with
  | none =>
    rw [decodeStep_eq_empty (hobj.trans ho)]
    refine ⟨g, rfl, inv.extend_inert ?_ ?_⟩
    · unfold atomRecordAt
      rw [ho]
    · unfold linkRecordAt
      rw [ho]
  | some o =>
    cases o with
    | Abstract =>
      rw [decodeStep_eq_abstract (hobj.trans ho)]
      refine ⟨g, rfl, inv.extend_inert ?_ ?_⟩
      · unfold atomRecordAt
        rw [ho]
      · unfold linkRecordAt
        rw [ho]
    | Atom a =>
      have hlookup : g.atom_indexes a = none := by
        cases hx : g.atom_indexes a with
        | none => rfl
        | some j =>
          obtain ⟨hjdone, hsj⟩ := (inv.atom_map a j).mp hx
          have hji : j = i := uniqueAtoms_eq hA hsj ho
          exact absurd (hji ▸ hjdone) hdone
      rw [decodeStep_eq_atom (hobj.trans ho), register_atom_eq hlookup]
      refine ⟨_, rfl, ?_⟩
      refine ⟨inv.len_eq, fun j => inv.obj_eq j, fun j => inv.desc_eq j, ?_, ?_,
        fun t hv => ?_, fun t hv => ?_⟩
      rotate_left 2
      · have hvg : g.valid t = true := hv
        have hf : linkFromAt s i t = false := by
          unfold linkFromAt linkRecordAt
          rw [ho]
        have hmain : g.outLinks t = List.filter (fun j => linkFromAt s j t) (done ++ [i]) := by
          rw [inv.outl t hvg, List.filter_append]
          simp [hf]
        exact hmain
      · have hvg : g.valid t = true := hv
        have hf : linkToAt s i t = false := by
          unfold linkToAt linkRecordAt
          rw [ho]
        have hmain : g.inLinks t = List.filter (fun j => linkToAt s j t) (done ++ [i]) := by
          rw [inv.inl t hvg, List.filter_append]
          simp [hf]
        exact hmain
      · intro a' j
        by_cases ha' : a' = a
        · subst ha'
          constructor
          · intro hj
            have hj' : some i = some j := by simpa using hj
            have hji : j = i := (Option.some.inj hj').symm
            subst hji
            exact ⟨List.mem_append_right _ (List.mem_singleton_self _), ho⟩
          · rintro ⟨hj, hsj⟩
            have hji : j = i := by
              rcases List.mem_append.mp hj with hj | hj
              · have hcontra := (inv.atom_map a' j).mpr ⟨hj, hsj⟩
                rw [hlookup] at hcontra
                exact Option.noConfusion hcontra
              · exact List.mem_singleton.mp hj
            subst hji
            simp
        · constructor
          · intro hj
            have hj' : g.atom_indexes a' = some j := by simpa [ha'] using hj
            obtain ⟨h1, h2⟩ := (inv.atom_map a' j).mp hj'
            exact ⟨List.mem_append_left _ h1, h2⟩
          · rintro ⟨hj, hsj⟩
            rcases List.mem_append.mp hj with hj | hj
            · have hr := (inv.atom_map a' j).mpr ⟨hj, hsj⟩
              simpa [ha'] using hr
            · have hji : j = i := List.mem_singleton.mp hj
              subst hji
              rw [ho] at hsj
              simp only [Option.some.injEq, Object.Atom.injEq] at hsj
              exact absurd hsj.symm ha'
      · intro l j
        have hbase := inv.link_map l j
        constructor
        · intro hj
          obtain ⟨h1, h2⟩ := hbase.mp hj
          exact ⟨List.mem_append_left _ h1, h2⟩
        · rintro ⟨hj, hsj⟩
          rcases List.mem_append.mp hj with hj | hj
          · exact hbase.mpr ⟨hj, hsj⟩
          · have hji : j = i := List.mem_singleton.mp hj
            subst hji
            rw [ho] at hsj
            exact Object.noConfusion (Option.some.inj hsj)
    | Link l =>
      have hrec : linkRecordAt s i = some l := linkRecordAt_some_iff.mpr ho
      have hocc : (serOccupied s l.«from» && serOccupied s l.«to») = true := by
        unfold isBadLink at hbad
        rw [hrec] at hbad
        have hbad' : (!(serOccupied s l.«from» && serOccupied s l.«to»)) = false := hbad
        cases hv : (serOccupied s l.«from» && serOccupied s l.«to»)
        · rw [hv] at hbad'
          exact Bool.noConfusion hbad'
        · rfl
      have hocc2 : serOccupied s l.«from» = true ∧ serOccupied s l.«to» = true := by
        simpa using hocc
      have hvF : g.valid l.«from» = true := by
        rw [inv.valid_eq]
        exact hocc2.1
      have hvT : g.valid l.«to» = true := by
        rw [inv.valid_eq]
        exact hocc2.2
      have hlookup : g.link_indexes l = none := by
        cases hx : g.link_indexes l with
        | none => rfl
        | some j =>
          obtain ⟨hjdone, hsj⟩ := (inv.link_map l j).mp hx
          have hji : j = i := uniqueLinks_eq hL hsj ho
          exact absurd (hji ▸ hjdone) hdone
      obtain ⟨g2, hreg, hlen2, hobj2, hdesc2, hvalid2, hatoms2, hlinks2, hout2, hin2⟩ :=
        register_link_spec hvF hvT hlookup (i := i)
      have hcond : (g.valid l.«from» && g.valid l.«to») = true := by
        rw [hvF, hvT]
        rfl
      rw [decodeStep_eq_link_valid (hobj.trans ho) hcond, hreg]
      refine ⟨g2, rfl, ?_⟩
      refine ⟨?_, ?_, ?_, ?_, ?_, ?_, ?_⟩
      · rw [hlen2]
        exact inv.len_eq
      · intro j
        rw [hobj2 j]
        exact inv.obj_eq j
      · intro j
        rw [hdesc2 j]
        exact inv.desc_eq j
      · intro a j
        rw [show g2.atom_indexes = g.atom_indexes from hatoms2]
        have hbase := inv.atom_map a j
        constructor
        · intro hj
          obtain ⟨h1, h2⟩ := hbase.mp hj
          exact ⟨List.mem_append_left _ h1, h2⟩
        · rintro ⟨hj, hsj⟩
          rcases List.mem_append.mp hj with hj | hj
          · exact hbase.mpr ⟨hj, hsj⟩
          · have hji : j = i := List.mem_singleton.mp hj
            subst hji
            rw [ho] at hsj
            exact Object.noConfusion (Option.some.inj hsj)
      · intro l' j
        rw [show g2.link_indexes = _ from hlinks2]
        by_cases hl' : l' = l
        · subst hl'
          constructor
          · intro hj
            have hj' : some i = some j := by simpa using hj
            have hji : j = i := (Option.some.inj hj').symm
            subst hji
            exact ⟨List.mem_append_right _ (List.mem_singleton_self _), ho⟩
          · rintro ⟨hj, hsj⟩
            have hji : j = i := by
              rcases List.mem_append.mp hj with hj | hj
              · have hcontra := (inv.link_map l' j).mpr ⟨hj, hsj⟩
                rw [hlookup] at hcontra
                exact Option.noConfusion hcontra
              · exact List.mem_singleton.mp hj
            subst hji
            simp
        · constructor
          · intro hj
            have hj' : g.link_indexes l' = some j := by simpa [hl'] using hj
            obtain ⟨h1, h2⟩ := (inv.link_map l' j).mp hj'
            exact ⟨List.mem_append_left _ h1, h2⟩
          · rintro ⟨hj, hsj⟩
            rcases List.mem_append.mp hj with hj | hj
            · have hr := (inv.link_map l' j).mpr ⟨hj, hsj⟩
              simpa [hl'] using hr
            · have hji : j = i := List.mem_singleton.mp hj
              subst hji
              rw [ho] at hsj
              simp only [Option.some.injEq, Object.Link.injEq] at hsj
              exact absurd hsj.symm hl'
      · intro t hvt
        have hvt' : g.valid t = true := by
          rw [← hvalid2 t]
          exact hvt
        rw [hout2 t, List.filter_append, inv.outl t hvt']
        by_cases ht : t = l.«from»
        · rw [if_pos ht]
          have hp : linkFromAt s i t = true := by
            unfold linkFromAt
            rw [hrec, ht]
            simp
          simp [hp]
        · rw [if_neg ht]
          have hp : linkFromAt s i t = false := by
            unfold linkFromAt
            rw [hrec]
            rw [beq_eq_false_iff_ne]
            exact fun e => ht e.symm
          simp [hp]
      · intro t hvt
        have hvt' : g.valid t = true := by
          rw [← hvalid2 t]
          exact hvt
        rw [hin2 t, List.filter_append, inv.inl t hvt']
        by_cases ht : t = l.«to»
        · rw [if_pos ht]
          have hp : linkToAt s i t = true := by
            unfold linkToAt
            rw [hrec, ht]
            simp
          simp [hp]
        · rw [if_neg ht]
          have hp : linkToAt s i t = false := by
            unfold linkToAt
            rw [hrec]
            rw [beq_eq_false_iff_ne]
            exact fun e => ht e.symm
          simp [hp]

theorem decode_eq (s : List (Option SerObjectData)) :
    decode s = decodeLoop
      { objects := initObjects s, atom_indexes := fun _ => none, link_indexes := fun _ => none }
      (List.range s.length) := by
  unfold decode
  rw [show (initObjects s).length = s.length from by simp [initObjects]]

theorem decodeLoop_ok {s : List (Option SerObjectData)}
    (hA : UniqueAtomRecords s) (hL : UniqueLinkRecords s) :
    ∀ (todo done : List Nat) (g : Graph), LoopInv s done g →
    (∀ i ∈ todo, i ∉ done) → todo.Nodup →
    (∀ i ∈ todo, isBadLink s i = false) →
    ∃ g', decodeLoop g todo = DecodeResult.ok g' ∧ LoopInv s (done ++ todo) g' := by
  intro todo
  induction todo with
  | nil =>
    intro done g inv _ _ _
    exact ⟨g, rfl, by simpa using inv⟩
  | cons i rest ih =>
    intro done g inv hdisj hnodup hgood
    obtain ⟨g1, hstep, inv1⟩ := decodeStep_ok inv hA hL
      (hdisj i (List.mem_cons_self i rest)) (hgood i (List.mem_cons_self i rest))
    have hdisj1 : ∀ j ∈ rest, j ∉ done ++ [i] := by
      intro j hj hd
      rcases List.mem_append.mp hd with hd | hd
      · exact hdisj j (List.mem_cons_of_mem _ hj) hd
      · have hji : j = i := List.mem_singleton.mp hd
        subst hji
        exact (List.nodup_cons.mp hnodup).1 hj
    obtain ⟨g', hloop, inv'⟩ := ih (done ++ [i]) g1 inv1 hdisj1
      (List.nodup_cons.mp hnodup).2 (fun j hj => hgood j (List.mem_cons_of_mem _ hj))
    have hl : (done ++ [i]) ++ rest = done ++ i :: rest := by simp
    refine ⟨g', ?_, hl ▸ inv'⟩
    simp only [decodeLoop]
    rw [hstep]
    exact hloop

theorem decodeLoop_err {s : List (Option SerObjectData)}
    (hA : UniqueAtomRecords s) (hL : UniqueLinkRecords s) :
    ∀ (todo done : List Nat) (g : Graph), LoopInv s done g →
    (∀ i ∈ todo, i ∉ done) → todo.Nodup →
    (∃ i, i ∈ todo ∧ isBadLink s i = true) →
    ∃ i, decodeLoop g todo = DecodeResult.error i ∧ isBadLink s i = true := by
  intro todo
  induction todo with
  | nil =>
    rintro done g inv _ _ ⟨i, hi, -⟩
    exact absurd hi (List.not_mem_nil i)
  | cons i rest ih =>
    rintro done g inv hdisj hnodup ⟨i0, hi0, hbad0⟩
    cases hbi : isBadLink s i with
    | true =>
      have hrec : ∃ l, linkRecordAt s i = some l := by
        unfold isBadLink at hbi
        cases hx : linkRecordAt s i with
        | none =>
          rw [hx] at hbi
          exact Bool.noConfusion hbi
        | some l => exact ⟨l, rfl⟩
      obtain ⟨l, hrec⟩ := hrec
      have ho : serSlotObject s i = some (Object.Link l) := linkRecordAt_some_iff.mp hrec
      have hobj : g.slotObject i = some (Object.Link l) := (inv.obj_eq i).trans ho
      have hcond : (g.valid l.«from» && g.valid l.«to») = false := by
        rw [inv.valid_eq l.«from», inv.valid_eq l.«to»]
        unfold isBadLink at hbi
        rw [hrec] at hbi
        have hbi' : (!(serOccupied s l.«from» && serOccupied s l.«to»)) = true := hbi
        cases hv : (serOccupied s l.«from» && serOccupied s l.«to»)
        · rfl
        · rw [hv] at hbi'
          exact Bool.noConfusion hbi'
      refine ⟨i, ?_, hbi⟩
      simp only [decodeLoop]
      rw [decodeStep_eq_link_invalid hobj hcond]
    | false =>
      obtain ⟨g1, hstep, inv1⟩ := decodeStep_ok inv hA hL
        (hdisj i (List.mem_cons_self i rest)) hbi
      have hi0rest : i0 ∈ rest := by
        rcases List.mem_cons.mp hi0 with he | hm
        · exfalso
          rw [he] at hbad0
          rw [hbad0] at hbi
          exact Bool.noConfusion hbi
        · exact hm
      have hdisj1 : ∀ j ∈ rest, j ∉ done ++ [i] := by
        intro j hj hd
        rcases List.mem_append.mp hd with hd | hd
        · exact hdisj j (List.mem_cons_of_mem _ hj) hd
        · have hji : j = i := List.mem_singleton.mp hd
          subst hji
          exact (List.nodup_cons.mp hnodup).1 hj
      obtain ⟨i', hloop, hbad'⟩ := ih (done ++ [i]) g1 inv1 hdisj1
        (List.nodup_cons.mp hnodup).2 ⟨i0, hi0rest, hbad0⟩
      refine ⟨i', ?_, hbad'⟩
      simp only [decodeLoop]
      rw [hstep]
      exact hloop

theorem decode_ok_of_no_bad {s : List (Option SerObjectData)}
    (hA : UniqueAtomRecords s) (hL : UniqueLinkRecords s)
    (hnobad : ∀ i, isBadLink s i = false) :
    ∃ g', decode s = DecodeResult.ok g' ∧ LoopInv s (List.range s.length) g' := by
  obtain ⟨g', hloop, inv'⟩ := decodeLoop_ok hA hL (List.range s.length) []
    { objects := initObjects s, atom_indexes := fun _ => none, link_indexes := fun _ => none }
    (loopInv_init s) (fun i _ => List.not_mem_nil i) (List.nodup_range s.length)
    (fun i _ => hnobad i)
  refine ⟨g', ?_, by simpa using inv'⟩
  rw [decode_eq s]
  exact hloop

theorem decode_err_of_bad {s : List (Option SerObjectData)}
    (hA : UniqueAtomRecords s) (hL : UniqueLinkRecords s) {i0 : Nat}
    (hbad : isBadLink s i0 = true) :
    ∃ i, decode s = DecodeResult.error i ∧ isBadLink s i = true := by
  have hi0lt : i0 < s.length := by
    unfold isBadLink at hbad
    cases hx : linkRecordAt s i0 with
    | none =>
      rw [hx] at hbad
      exact Bool.noConfusion hbad
    | some l => exact serSlot_lt (linkRecordAt_some_iff.mp hx)
  obtain ⟨i, hloop, hbi⟩ := decodeLoop_err hA hL (List.range s.length) []
    { objects := initObjects s, atom_indexes := fun _ => none, link_indexes := fun _ => none }
    (loopInv_init s) (fun i _ => List.not_mem_nil i) (List.nodup_range s.length)
    ⟨i0, List.mem_range.mpr hi0lt, hbad⟩
  exact ⟨i, by rw [decode_eq s]; exact hloop, hbi⟩

/-- Claim C8 (amended): for slot sequences whose occupied Atom records
carry pairwise distinct values and whose occupied Link records carry
pairwise distinct endpoint pairs (so the uniqueness-index assertions of
the rebuild pass cannot panic), decoding succeeds exactly when no occupied
Link record has an endpoint resolving to an empty or out-of-range slot;
whenever some occupied Link record is bad, decoding fails with
`DecodeResult.error` at a slot holding a bad Link record; and any reported
error identifies such a slot.  Forward references to later occupied slots
are accepted, since endpoint validity is checked against the fully loaded
slot array.  The claim as frozen, without the distinctness proviso, fails:
a duplicated atom value makes the rebuild pass panic instead of
erroring. -/
theorem claim_C8_decode_validation_amended (s : List (Option SerObjectData))
    (hA : UniqueAtomRecords s) (hL : UniqueLinkRecords s) :
    ((∃ g, decode s = DecodeResult.ok g) ↔ ∀ i, isBadLink s i = false) ∧
    ((∃ i, isBadLink s i = true) →
      ∃ i', decode s = DecodeResult.error i' ∧ isBadLink s i' = true) ∧
    (∀ i, decode s = DecodeResult.error i → isBadLink s i = true) := by
  refine ⟨?_, ?_, ?_⟩
  · constructor
    · rintro ⟨g, hg⟩ i
      cases hbool : isBadLink s i with
      | false => rfl
      | true =>
        obtain ⟨i', herr, -⟩ := decode_err_of_bad hA hL hbool
        rw [herr] at hg
        exact DecodeResult.noConfusion hg
    · intro hnobad
      obtain ⟨g', hdec, -⟩ := decode_ok_of_no_bad hA hL hnobad
      exact ⟨g', hdec⟩
  · rintro ⟨i0, hbad⟩
    exact decode_err_of_bad hA hL hbad
  · intro i hi
    by_cases hex : ∀ j, isBadLink s j = false
    · obtain ⟨g', hdec, -⟩ := decode_ok_of_no_bad hA hL hex
      rw [hdec] at hi
      exact DecodeResult.noConfusion hi
    · push_neg at hex
      obtain ⟨j, hj⟩ := hex
      have hjt : isBadLink s j = true := by
        cases hb : isBadLink s j with
        | false => exact absurd hb hj
        | true => rfl
      obtain ⟨i', herr, hbad'⟩ := decode_err_of_bad hA hL hjt
      rw [herr] at hi
      rw [← DecodeResult.error.inj hi]
      exact hbad'

/-- Witness for amended claim C8 at two concrete sequences with distinct
records: the forward-reference sequence `[Link{from:1,to:1}, Atom "a"]`
(no bad link) decodes successfully, and `[Atom "b", Link{from:5,to:5}]`
(bad link at slot 1) decodes to `DecodeResult.error 1`, exhibiting both
outcomes of the theorem. -/
theorem claim_C8_decode_validation_amended_witness :
    (((∃ g, decode fwdSeq = DecodeResult.ok g) ↔ ∀ i, isBadLink fwdSeq i = false) ∧
      ((∃ i, isBadLink fwdSeq i = true) →
        ∃ i', decode fwdSeq = DecodeResult.error i' ∧ isBadLink fwdSeq i' = true) ∧
      (∀ i, decode fwdSeq = DecodeResult.error i → isBadLink fwdSeq i = true)) ∧
    (decode fwdSeq).isOk = true ∧
    (((∃ g, decode badSeq = DecodeResult.ok g) ↔ ∀ i, isBadLink badSeq i = false) ∧
      ((∃ i, isBadLink badSeq i = true) →
        ∃ i', decode badSeq = DecodeResult.error i' ∧ isBadLink badSeq i' = true) ∧
      (∀ i, decode badSeq = DecodeResult.error i → isBadLink badSeq i = true)) ∧
    isBadLink badSeq 1 = true ∧
    decode badSeq = DecodeResult.error 1 :=
  ⟨claim_C8_decode_validation_amended fwdSeq (by decide) (by decide), rfl,
   claim_C8_decode_validation_amended badSeq (by decide) (by decide), rfl, rfl⟩

theorem slotObject_lt {g : Graph} {j : Nat} {o : Object}
    (h : g.slotObject j = some o) : j < g.objects.length := by
  unfold Graph.slotObject at h
  cases hx : g.objects[j]? with
  | none =>
    simp only [hx] at h
    exact Option.noConfusion h
  | some x => exact lt_of_getElem?_eq_some hx

/-- Claim C3 (amended): for every store satisfying the store invariants
`WF` (uniqueness indices exactly mirroring the live atoms/links, live link
endpoints live, back-link sets exact — the state of every store built
without the unguarded removal of a referenced element),
`decode (encode store)` succeeds and yields a store with the same
Index-to-Element mapping, the same description per slot, and back-link
sets equal as sets to the original's.  The claim as frozen quantifies over
all reachable stores and fails on the store reached by removing a
still-referenced atom. -/
theorem claim_C3_roundtrip_wf (g : Graph) (hWF : WF g) :
    ∃ g', decode (encode g) = DecodeResult.ok g' ∧
      g'.objects.length = g.objects.length ∧
      (∀ i, g'.slotObject i = g.slotObject i) ∧
      (∀ i, g'.slotDescription i = g.slotDescription i) ∧
      (∀ t j, j ∈ g'.outLinks t ↔ j ∈ g.outLinks t) ∧
      (∀ t j, j ∈ g'.inLinks t ↔ j ∈ g.inLinks t) := by
  have hser : ∀ i, serSlotObject (encode g) i = g.slotObject i := serSlotObject_encode g
  have hA : UniqueAtomRecords (encode g) := by
    intro i hi j hj hsome heq
    cases hx : atomRecordAt (encode g) i with
    | none =>
      rw [hx] at hsome
      exact Bool.noConfusion hsome
    | some a =>
      rw [hx] at heq
      have hsi : g.slotObject i = some (Object.Atom a) := by
        rw [← hser i]
        exact atomRecordAt_some_iff.mp hx
      have hsj : g.slotObject j = some (Object.Atom a) := by
        rw [← hser j]
        exact atomRecordAt_some_iff.mp heq.symm
      have h1 := hWF.atom_complete a i hsi
      have h2 := hWF.atom_complete a j hsj
      rw [h1] at h2
      exact Option.some.inj h2
  have hL : UniqueLinkRecords (encode g) := by
    intro i hi j hj hsome heq
    cases hx : linkRecordAt (encode g) i with
    | none =>
      rw [hx] at hsome
      exact Bool.noConfusion hsome
    | some l =>
      rw [hx] at heq
      have hsi : g.slotObject i = some (Object.Link l) := by
        rw [← hser i]
        exact linkRecordAt_some_iff.mp hx
      have hsj : g.slotObject j = some (Object.Link l) := by
        rw [← hser j]
        exact linkRecordAt_some_iff.mp heq.symm
      have h1 := hWF.link_complete l i hsi
      have h2 := hWF.link_complete l j hsj
      rw [h1] at h2
      exact Option.some.inj h2
  have hnobad : ∀ i, isBadLink (encode g) i = false := by
    intro i
    unfold isBadLink
    cases hx : linkRecordAt (encode g) i with
    | none => rfl
    | some l =>
      have hsl : g.slotObject i = some (Object.Link l) := by
        rw [← hser i]
        exact linkRecordAt_some_iff.mp hx
      obtain ⟨hf, ht⟩ := hWF.endpoints_live l i hsl
      have hoccF : serOccupied (encode g) l.«from» = true := by
        unfold serOccupied
        rw [hser, ← valid_eq_isSome]
        exact hf
      have hoccT : serOccupied (encode g) l.«to» = true := by
        unfold serOccupied
        rw [hser, ← valid_eq_isSome]
        exact ht
      show (!(serOccupied (encode g) l.«from» && serOccupied (encode g) l.«to»)) = false
      rw [hoccF, hoccT]
      rfl
  obtain ⟨g', hdec, inv⟩ := decode_ok_of_no_bad hA hL hnobad
  have hlen : g'.objects.length = g.objects.length := by
    rw [inv.len_eq, length_encode]
  have hobj' : ∀ i, g'.slotObject i = g.slotObject i := fun i => (inv.obj_eq i).trans (hser i)
  have hdesc' : ∀ i, g'.slotDescription i = g.slotDescription i := fun i =>
    (inv.desc_eq i).trans (serSlotDescription_encode g i)
  have hvalid' : ∀ t, g'.valid t = g.valid t := by
    intro t
    rw [valid_eq_isSome, valid_eq_isSome, hobj' t]
  refine ⟨g', hdec, hlen, hobj', hdesc', ?_, ?_⟩
  · intro t j
    cases hv : g.valid t with
    | false =>
      rw [outLinks_nil_of_valid_false hv,
        outLinks_nil_of_valid_false (g := g') (by rw [hvalid' t]; exact hv)]
    | true =>
      have hv' : g'.valid t = true := by
        rw [hvalid' t]
        exact hv
      rw [inv.outl t hv', List.mem_filter]
      constructor
      · rintro ⟨hjr, hjp⟩
        obtain ⟨l, hsl, hfrom⟩ := linkFromAt_true_iff.mp hjp
        rw [hser j] at hsl
        exact ((hWF.backlinks t hv).1 j).mpr ⟨l, hsl, hfrom⟩
      · intro hj
        obtain ⟨l, hsl, hfrom⟩ := ((hWF.backlinks t hv).1 j).mp hj
        refine ⟨?_, linkFromAt_true_iff.mpr ⟨l, by rw [hser j]; exact hsl, hfrom⟩⟩
        rw [List.mem_range, length_encode]
        exact slotObject_lt hsl
  · intro t j
    cases hv : g.valid t with
    | false =>
      rw [inLinks_nil_of_valid_false hv,
        inLinks_nil_of_valid_false (g := g') (by rw [hvalid' t]; exact hv)]
    | true =>
      have hv' : g'.valid t = true := by
        rw [hvalid' t]
        exact hv
      rw [inv.inl t hv', List.mem_filter]
      constructor
      · rintro ⟨hjr, hjp⟩
        obtain ⟨l, hsl, hto⟩ := linkToAt_true_iff.mp hjp
        rw [hser j] at hsl
        exact ((hWF.backlinks t hv).2 j).mpr ⟨l, hsl, hto⟩
      · intro hj
        obtain ⟨l, hsl, hto⟩ := ((hWF.backlinks t hv).2 j).mp hj
        refine ⟨?_, linkToAt_true_iff.mpr ⟨l, by rw [hser j]; exact hsl, hto⟩⟩
        rw [List.mem_range, length_encode]
        exact slotObject_lt hsl

/-- Witness for amended claim C3 at the spec's scenario store (abstract
element at 0, atom "PJ" at 1, link (0,1) at 2), whose `WF` invariants are
discharged explicitly. -/
theorem claim_C3_roundtrip_wf_witness :
    ∃ g', decode (encode gScn) = DecodeResult.ok g' ∧
      g'.objects.length = gScn.objects.length ∧
      (∀ i, g'.slotObject i = gScn.slotObject i) ∧
      (∀ i, g'.slotDescription i = gScn.slotDescription i) ∧
      (∀ t j, j ∈ g'.outLinks t ↔ j ∈ gScn.outLinks t) ∧
      (∀ t j, j ∈ g'.inLinks t ↔ j ∈ gScn.inLinks t) := by
  refine claim_C3_roundtrip_wf gScn ?_
  have hmapA : ∀ a, gScn.atom_indexes a = (if a = Atom.text "PJ" then some 1 else none) :=
    fun _ => rfl
  have hmapL : ∀ l, gScn.link_indexes l =
      (if l = { «from» := 0, «to» := 1 } then some 2 else none) := fun _ => rfl
  constructor
  · intro a i h
    rw [hmapA a] at h
    by_cases ha : a = Atom.text "PJ"
    · subst ha
      rw [if_pos rfl] at h
      have hi : i = 1 := (Option.some.inj h).symm
      subst hi
      rfl
    · rw [if_neg ha] at h
      exact Option.noConfusion h
  · intro a i h
    rcases i with _ | _ | _ | n
    · exact Object.noConfusion (Option.some.inj h)
    · have ha2 : Atom.text "PJ" = a := Object.Atom.inj (Option.some.inj h)
      rw [hmapA a, if_pos ha2.symm]
    · exact Object.noConfusion (Option.some.inj h)
    · exact Option.noConfusion h
  · intro l i h
    rw [hmapL l] at h
    by_cases hl : l = { «from» := 0, «to» := 1 }
    · subst hl
      rw [if_pos rfl] at h
      have hi : i = 2 := (Option.some.inj h).symm
      subst hi
      rfl
    · rw [if_neg hl] at h
      exact Option.noConfusion h
  · intro l i h
    rcases i with _ | _ | _ | n
    · exact Object.noConfusion (Option.some.inj h)
    · exact Object.noConfusion (Option.some.inj h)
    · have hl2 : ({ «from» := 0, «to» := 1 } : Link) = l :=
        Object.Link.inj (Option.some.inj h)
      rw [hmapL l, if_pos hl2.symm]
    · exact Option.noConfusion h
  · intro l i h
    rcases i with _ | _ | _ | n
    · exact Object.noConfusion (Option.some.inj h)
    · exact Object.noConfusion (Option.some.inj h)
    · have hl2 : ({ «from» := 0, «to» := 1 } : Link) = l :=
        Object.Link.inj (Option.some.inj h)
      rw [← hl2]
      exact ⟨rfl, rfl⟩
    · exact Option.noConfusion h
  · intro t ht
    rcases t with _ | _ | _ | n
    · refine ⟨fun j => ⟨?_, ?_⟩, fun j => ⟨?_, ?_⟩⟩
      · intro hj
        have hj2 : j = 2 := List.mem_singleton.mp hj
        subst hj2
        exact ⟨{ «from» := 0, «to» := 1 }, rfl, rfl⟩
      · rintro ⟨l, hl, hfrom⟩
        rcases j with _ | _ | _ | n
        · exact Object.noConfusion (Option.some.inj hl)
        · exact Object.noConfusion (Option.some.inj hl)
        · exact List.mem_singleton_self 2
        · exact Option.noConfusion hl
      · intro hj
        exact absurd hj (List.not_mem_nil j)
      · rintro ⟨l, hl, hto⟩
        rcases j with _ | _ | _ | n
        · exact Object.noConfusion (Option.some.inj hl)
        · exact Object.noConfusion (Option.some.inj hl)
        · have hl2 : ({ «from» := 0, «to» := 1 } : Link) = l :=
            Object.Link.inj (Option.some.inj hl)
          rw [← hl2] at hto
          exact absurd hto (by decide)
        · exact Option.noConfusion hl
    · refine ⟨fun j => ⟨?_, ?_⟩, fun j => ⟨?_, ?_⟩⟩
      · intro hj
        exact absurd hj (List.not_mem_nil j)
      · rintro ⟨l, hl, hfrom⟩
        rcases j with _ | _ | _ | n
        · exact Object.noConfusion (Option.some.inj hl)
        · exact Object.noConfusion (Option.some.inj hl)
        · have hl2 : ({ «from» := 0, «to» := 1 } : Link) = l :=
            Object.Link.inj (Option.some.inj hl)
          rw [← hl2] at hfrom
          exact absurd hfrom (by decide)
        · exact Option.noConfusion hl
      · intro hj
        have hj2 : j = 2 := List.mem_singleton.mp hj
        subst hj2
        exact ⟨{ «from» := 0, «to» := 1 }, rfl, rfl⟩
      · rintro ⟨l, hl, hto⟩
        rcases j with _ | _ | _ | n
        · exact Object.noConfusion (Option.some.inj hl)
        · exact Object.noConfusion (Option.some.inj hl)
        · exact List.mem_singleton_self 2
        · exact Option.noConfusion hl
    · refine ⟨fun j => ⟨?_, ?_⟩, fun j => ⟨?_, ?_⟩⟩
      · intro hj
        exact absurd hj (List.not_mem_nil j)
      · rintro ⟨l, hl, hfrom⟩
        rcases j with _ | _ | _ | n
        · exact Object.noConfusion (Option.some.inj hl)
        · exact Object.noConfusion (Option.some.inj hl)
        · have hl2 : ({ «from» := 0, «to» := 1 } : Link) = l :=
            Object.Link.inj (Option.some.inj hl)
          rw [← hl2] at hfrom
          exact absurd hfrom (by decide)
        · exact Option.noConfusion hl
      · intro hj
        exact absurd hj (List.not_mem_nil j)
      · rintro ⟨l, hl, hto⟩
        rcases j with _ | _ | _ | n
        · exact Object.noConfusion (Option.some.inj hl)
        · exact Object.noConfusion (Option.some.inj hl)
        · have hl2 : ({ «from» := 0, «to» := 1 } : Link) = l :=
            Object.Link.inj (Option.some.inj hl)
          rw [← hl2] at hto
          exact absurd hto (by decide)
        · exact Option.noConfusion hl
    · exact Bool.noConfusion ht

end Rett